import Mathlib

/-!
Shallow embedding of the Taskenhower task-organizer core (src/src/App.jsx,
the full multi-matrix revision): data model, ordering engine, migration,
view composition, mutation operations and the drag-and-drop interpreter,
together with proofs of the specification claims about them.
-/

namespace Taskenhower

/-- Urgency levels `["High", "Medium", "Low", "None"]` (quadrant keys). -/
inductive Urgency where
  | High
  | Medium
  | Low
  | None
deriving DecidableEq, Repr

/-- Task status strings `"Not Done" | "Completed" | "Archived" | "Deleted"`. -/
inductive Status where
  | NotDone
  | Completed
  | Archived
  | Deleted
deriving DecidableEq, Repr

/-- A task record.  `matrixId` is `Option` because legacy records may lack it
(`none` models an absent/undefined field, `some ""` an empty string), `order`
is `Option` because legacy records may have no numeric `order`, and `tag` is
the legacy flat category field. -/
structure Task where
  id : Nat
  text : String
  matrixId : Option String
  urgency : Urgency
  status : Status
  order : Option Int
  tag : Option String
  createdAt : Option String
  archivedAt : Option String
  deletedAt : Option String
deriving DecidableEq, Repr

/-- A matrix record `{ id, name, pinned }`. -/
structure Matrix where
  id : String
  name : String
  pinned : Bool
deriving DecidableEq, Repr

/-- `const urgencyLevels = ["High", "Medium", "Low", "None"]`. -/
def urgencyLevels : List Urgency := [.High, .Medium, .Low, .None]

/-- `DEFAULT_MATRICES` from the source. -/
def DEFAULT_MATRICES : List Matrix :=
  [⟨"work", "Work", true⟩, ⟨"personal", "Personal", true⟩, ⟨"goals", "Goals", true⟩]

/-- ASCII whitespace for the JS `String.prototype.trim` model. -/
def isWsChar (c : Char) : Bool := c = ' ' ∨ c = '\t' ∨ c = '\n' ∨ c = '\r'

/-- JS `s.trim()`: strip leading and trailing whitespace (modelled over the
string's character list so that it computes by kernel reduction). -/
def jsTrim (s : String) : String :=
  ⟨((s.data.dropWhile isWsChar).reverse.dropWhile isWsChar).reverse⟩

/-- The list of task ids of a collection. -/
def idsOf (ts : List Task) : List Nat := ts.map (·.id)

/-- `t.status !== "Archived" && t.status !== "Deleted"`. -/
def isLive (t : Task) : Bool :=
  t.status ≠ Status.Archived ∧ t.status ≠ Status.Deleted

/-- The filter used throughout the source for one `(matrixId, urgency)` scope:
`t.matrixId === matrixId && t.urgency === urgency && live`. -/
def inScope (m : String) (u : Urgency) (t : Task) : Bool :=
  t.matrixId = some m ∧ t.urgency = u ∧ isLive t

/-- `typeof t.order === "number" ? t.order : 0`. -/
def orderVal (t : Task) : Int := t.order.getD 0

/-- The comparator `(a, b) => (aord !== bord ? aord - bord : a.id - b.id)`
returns a negative number exactly when this strict lexicographic order holds. -/
def taskLt (a b : Task) : Prop :=
  orderVal a < orderVal b ∨ (orderVal a = orderVal b ∧ a.id < b.id)

instance (a b : Task) : Decidable (taskLt a b) := by
  unfold taskLt; infer_instance

/-- Non-strict version of `taskLt` (used to state sortedness). -/
def taskLe (a b : Task) : Prop :=
  orderVal a < orderVal b ∨ (orderVal a = orderVal b ∧ a.id ≤ b.id)

instance (a b : Task) : Decidable (taskLe a b) := by
  unfold taskLe; infer_instance

/-- Insert a task into a list sorted by the source comparator, after every
element strictly below it (this realizes the stable JS `Array.prototype.sort`
for that comparator). -/
def insertSorted (a : Task) : List Task → List Task
  | [] => [a]
  | b :: l => if taskLt b a then b :: insertSorted a l else a :: b :: l

/-- Stable sort by the source comparator: `order` ascending, tie-break `id`
ascending. -/
def sortTasks (l : List Task) : List Task := l.foldr insertSorted []

/-- `group.forEach((t, idx) => updates.set(t.id, idx))`: the association list
of `(key, index)` pairs, indices starting at `i`. -/
def buildIdxMap (i : Nat) : List Nat → List (Nat × Nat)
  | [] => []
  | k :: ks => (k, i) :: buildIdxMap (i + 1) ks

/-- `Map.get`: the value of the last `set` for the key, if any. -/
def mapGetLast (ps : List (Nat × Nat)) (k : Nat) : Option Nat :=
  ps.foldl (fun acc p => if p.1 = k then some p.2 else acc) none

/-- `updates.has(t.id) ? { ...t, order: updates.get(t.id) } : t` where
`updates` maps the ids in `ks` to their positions. -/
def applyOrderFun (ks : List Nat) (t : Task) : Task :=
  match mapGetLast (buildIdxMap 0 ks) t.id with
  | some i => { t with order := some (i : Int) }
  | none => t

/-- `allTasks.map(applyOrderFun ks)`: rewrite the `order` of every task whose
id occurs in `ks` to its position there. -/
def applyOrderMap (ts : List Task) (ks : List Nat) : List Task :=
  ts.map (applyOrderFun ks)

/-- `getNextOrder`: max existing numeric `order` among live tasks in the scope,
starting from `-1`, plus one. -/
def getNextOrder (allTasks : List Task) (m : String) (u : Urgency) : Int :=
  ((allTasks.filter (fun t => inScope m u t && t.order.isSome)).foldl
    (fun mx t => max mx (orderVal t)) (-1)) + 1

/-- `normalizeOrders`: sort the live tasks of the scope by the canonical
comparator and rewrite their `order` fields to their positions. -/
def normalizeOrders (allTasks : List Task) (m : String) (u : Urgency) : List Task :=
  applyOrderMap allTasks ((sortTasks (allTasks.filter (inScope m u))).map (·.id))

/-- `arrayMove(items, from, to)`: `splice` out index `from`, then `splice` the
removed element back in at index `to` (clamped to the end, as JS does). -/
def arrayMove {α : Type} (items : List α) (f t : Nat) : List α :=
  match items[f]? with
  | some x =>
    let rest := items.eraseIdx f
    rest.take t ++ x :: rest.drop t
  | none => items

/-- The reorder sequence the specification describes for a same-scope drop:
remove the dragged id (found at index `i` of the scope's canonical id list)
and reinsert it at the target's position `j` of the shortened list — the
standard array-move. -/
def specArrayMove (gids : List Nat) (aid : Nat) (i j : Nat) : List Nat :=
  (gids.eraseIdx i).take j ++ aid :: (gids.eraseIdx i).drop j

/-- A drop target reported by the drag library: either a quadrant container id
(one of the urgency strings) or another task's id. -/
inductive OverTarget where
  | quadrant (u : Urgency)
  | task (id : Nat)
deriving DecidableEq, Repr

/-- The shared body of the two cross-urgency branches of `handleDragEnd`:
give the dragged task the destination scope's next order and its new urgency,
then renormalize the vacated `(matrix, old urgency)` scope. -/
def moveToUrgency (ts : List Task) (activeId : Nat) (m : String)
    (oldU newU : Urgency) : List Task :=
  let nextOrder := getNextOrder ts m newU
  let moved := ts.map (fun t =>
    if t.id = activeId then { t with urgency := newU, order := some nextOrder } else t)
  normalizeOrders moved m oldU

/-- The same-scope reorder branch of `handleDragEnd`: canonical live list,
`indexOf` both ids (`-1` modelled as `none`), `arrayMove`, rewrite orders. -/
def reorderWithin (ts : List Task) (activeId overId : Nat) (m : String)
    (u : Urgency) : List Task :=
  let group := sortTasks (ts.filter (inScope m u))
  let ids := group.map (·.id)
  match ids.indexOf? activeId, ids.indexOf? overId with
  | some oldIndex, some newIndex => applyOrderMap ts (arrayMove ids oldIndex newIndex)
  | _, _ => ts

/-- `handleDragEnd({active, over})`: the drag-and-drop interpreter over the
task collection, given the current `selectedMatrixIds`. -/
def handleDragEnd (selected : List String) (tasks : List Task) (activeId : Nat)
    (over : Option OverTarget) : List Task :=
  match over with
  | none => tasks
  | some overTarget =>
    match tasks.find? (fun t => t.id = activeId) with
    | none => tasks
    | some activeTask =>
      match activeTask.matrixId with
      | none => tasks
      | some am =>
        if am ∈ selected then
          match overTarget with
          | .quadrant overU =>
            if activeTask.urgency = overU then tasks
            else moveToUrgency tasks activeId am activeTask.urgency overU
          | .task overId =>
            match tasks.find? (fun t => t.id = overId) with
            | none => tasks
            | some overTask =>
              if overTask.matrixId ≠ activeTask.matrixId then tasks
              else if overTask.urgency ≠ activeTask.urgency then
                moveToUrgency tasks activeId am activeTask.urgency overTask.urgency
              else if activeId = overId then tasks
              else reorderWithin tasks activeId overId am activeTask.urgency
        else tasks

/-- `addTask`: reject blank text, otherwise append a fresh `Not Done` task at
the scope's next order.  The fresh id and creation timestamp (`Date.now()`,
`new Date().toISOString()`) are taken as parameters. -/
def addTask (tasks : List Task) (text : String) (matrixId : String)
    (urgency : Urgency) (newId : Nat) (createdAt : String) : List Task :=
  if jsTrim text = "" then tasks
  else
    tasks ++ [{ id := newId, text := text, matrixId := some matrixId,
                urgency := urgency, status := .NotDone,
                order := some (getNextOrder tasks matrixId urgency),
                tag := none, createdAt := some createdAt,
                archivedAt := none, deletedAt := none }]

/-- `toggleComplete`: flip `status` of the matching task based on its current
value. -/
def toggleComplete (tasks : List Task) (id : Nat) : List Task :=
  tasks.map (fun t =>
    if t.id = id then
      { t with status := if t.status = .Completed then .NotDone else .Completed }
    else t)

/-- `archiveTask` (timestamp passed in for `new Date().toISOString()`). -/
def archiveTask (tasks : List Task) (id : Nat) (now : String) : List Task :=
  tasks.map (fun t =>
    if t.id = id then { t with status := .Archived, archivedAt := some now } else t)

/-- `unarchiveTask`. -/
def unarchiveTask (tasks : List Task) (id : Nat) : List Task :=
  tasks.map (fun t =>
    if t.id = id then { t with status := .NotDone, archivedAt := none } else t)

/-- `deleteTask` (the task-collection part; timestamp passed in). -/
def deleteTask (tasks : List Task) (id : Nat) (now : String) : List Task :=
  tasks.map (fun t =>
    if t.id = id then { t with status := .Deleted, deletedAt := some now } else t)

/-- `commitEdit` (the task-collection part): `editingTaskId` and the draft are
passed in; `null` id or a blank draft leaves the collection untouched. -/
def commitEditTasks (tasks : List Task) (editingTaskId : Option Nat)
    (editDraft : String) : List Task :=
  match editingTaskId with
  | none => tasks
  | some eid =>
    if jsTrim editDraft = "" then tasks
    else tasks.map (fun t => if t.id = eid then { t with text := jsTrim editDraft } else t)

/-- `t.matrixId === sourceId ? { ...t, matrixId: destId } : t`. -/
def reassignMatrix (sourceId destId : String) (t : Task) : Task :=
  if t.matrixId = some sourceId then { t with matrixId := some destId } else t

/-- `mergeMatrixInto` restricted to the task collection: reassign the source
matrix's tasks to the destination and renormalize the destination's four
urgency scopes.  Falsy/`"none"`/equal guards as in the source. -/
def mergeMatrixIntoTasks (tasks : List Task) (sourceId destId : String) : List Task :=
  if sourceId = "" ∨ sourceId = "none" then tasks
  else if destId = "" ∨ sourceId = destId then tasks
  else
    let moved := tasks.map (reassignMatrix sourceId destId)
    urgencyLevels.foldl (fun next u => normalizeOrders next destId u) moved

/-- `deleteMatrixArchiveTasks` restricted to the task collection: archive every
non-deleted task of the matrix (timestamp passed in). -/
def deleteMatrixArchiveTasks (tasks : List Task) (matrixId : String)
    (now : String) : List Task :=
  if matrixId = "" ∨ matrixId = "none" then tasks
  else
    tasks.map (fun t =>
      if t.matrixId = some matrixId ∧ t.status ≠ .Deleted then
        { t with status := .Archived, archivedAt := some now }
      else t)

/-- The legacy `tag → matrixId` lookup of `migrateTasks`:
`"Personal" → "personal"`, `"Goals" → "goals"`, anything else → `"work"`. -/
def legacyMatrixIdOfTag (tag : Option String) : String :=
  if tag = some "Personal" then "personal"
  else if tag = some "Goals" then "goals"
  else "work"

/-- The per-task mapping stage of `migrateTasks` (`if (t.matrixId) return t;`
else map the legacy tag, drop it, keep the rest).  A JS-truthy `matrixId` is
one that is present and non-empty. -/
def migrateOne (t : Task) : Task :=
  if t.matrixId ≠ none ∧ t.matrixId ≠ some "" then t
  else { t with matrixId := some (legacyMatrixIdOfTag t.tag), tag := none }

/-- The order-backfill pass of `migrateTasks`: walk the tasks in stored order
keeping a per-`(matrixId, urgency)` counter (a JS `Map` with default `0`,
modelled as a function). -/
def backfillAux (counters : Option String × Urgency → Nat) : List Task → List Task
  | [] => []
  | t :: ts =>
    let key := (t.matrixId, t.urgency)
    let nxt := counters key
    { t with order := some (nxt : Int) } ::
      backfillAux (fun k => if k = key then nxt + 1 else counters k) ts

/-- `migrateTasks`: legacy-tag mapping, then order backfill only when no task
has a numeric `order`. -/
def migrateTasks (allTasks : List Task) : List Task :=
  let migrated := allTasks.map migrateOne
  if migrated.any (fun t => t.order.isSome) then migrated
  else backfillAux (fun _ => 0) migrated

/-- JS `Map.set` on an association list: update the existing key in place,
otherwise append (preserving the `Map`'s insertion iteration order). -/
def mapUpsert (m : List (String × Matrix)) (k : String) (v : Matrix) :
    List (String × Matrix) :=
  if m.any (fun p => p.1 = k) then
    m.map (fun p => if p.1 = k then (k, v) else p)
  else m ++ [(k, v)]

/-- `new Map(list.map((m) => [m.id, m]))`: later entries overwrite earlier
ones, keys keep their first-insertion position. -/
def mapFromList (l : List Matrix) : List (String × Matrix) :=
  l.foldl (fun m x => mapUpsert m x.id x) []

/-- JS `Map.get`. -/
def jsMapGet (m : List (String × Matrix)) (k : String) : Option Matrix :=
  (m.find? (fun p => p.1 = k)).map (·.2)

/-- One default matrix pass: `if (!byId.has(m.id)) byId.set(m.id, m); else
byId.set(m.id, { ...existing, name: m.name, pinned: true })`. -/
def ensureStep (m : List (String × Matrix)) (dm : Matrix) : List (String × Matrix) :=
  match jsMapGet m dm.id with
  | none => mapUpsert m dm.id dm
  | some existing => mapUpsert m dm.id { existing with name := dm.name, pinned := true }

/-- `ensureDefaultPinnedMatrices`: insert each missing default, overwrite the
`name` and force `pinned = true` on each present default, return the `Map`'s
values in iteration order. -/
def ensureDefaultPinnedMatrices (list : List Matrix) : List Matrix :=
  (DEFAULT_MATRICES.foldl ensureStep (mapFromList list)).map (·.2)

/-- Invariant of the id-keyed matrix `Map`: every stored value carries its key
as its `id`. -/
def PairsOk (ps : List (String × Matrix)) : Prop := ∀ p ∈ ps, (p.2).id = p.1

/-- A matrix list with two records sharing the id `"x"`. -/
def dupMatrices : List Matrix := [⟨"x", "A", false⟩, ⟨"x", "B", false⟩]

/-- The shape-relevant outcome of `JSON.parse` on an import file: the parse
threw, the value is not an object, or an object whose `matrices`/`tasks`
fields are each either an array (`some`) or missing/not-an-array (`none`). -/
inductive ImportParse where
  | parseFailure
  | notObject
  | obj (matrices : Option (List Matrix)) (tasks : Option (List Task))
deriving DecidableEq, Repr

/-- The state touched by `importDataFromFile` that the import claims are
about: the two collections plus the error/success banners. -/
structure ImportResult where
  tasks : List Task
  matrices : List Matrix
  importError : String
  importOk : String
deriving DecidableEq, Repr

/-- `importDataFromFile`: on any validation failure the error banner is set
and the collections are left as they were; on success the normalized incoming
data replaces them. -/
def importDataFromFile (tasks0 : List Task) (matrices0 : List Matrix)
    (input : ImportParse) : ImportResult :=
  match input with
  | .parseFailure => ⟨tasks0, matrices0, "Import failed.", ""⟩
  | .notObject => ⟨tasks0, matrices0, "Invalid file format.", ""⟩
  | .obj incomingMatrices incomingTasks =>
    match incomingMatrices, incomingTasks with
    | some ms, some ts =>
      ⟨migrateTasks ts, ensureDefaultPinnedMatrices ms, "", "Imported successfully."⟩
    | _, _ =>
      ⟨tasks0, matrices0, "Import file must include both matrices and tasks arrays.", ""⟩

/-- `new Set(l)` keeping JS insertion iteration order. -/
def jsSetOfList (l : List String) : List String :=
  l.foldl (fun acc x => if x ∈ acc then acc else acc ++ [x]) []

/-- `selectedMatrixIds`: the remembered view order filtered to valid, active
ids, then any remaining active valid id appended. -/
def selectedMatrixIds (matrices : List Matrix) (activePinnedIds : List String)
    (focusMatrixId : String) (viewOrderIds : List String) : List String :=
  let validIds := matrices.map (·.id)
  let activeSet := jsSetOfList
    (activePinnedIds ++ if focusMatrixId ≠ "none" then [focusMatrixId] else [])
  let ordered := (viewOrderIds.filter (· ∈ validIds)).filter (· ∈ activeSet)
  activeSet.foldl (fun acc id =>
    if id ∈ validIds ∧ id ∉ acc then acc ++ [id] else acc) ordered

/-- The claim's description of `selectedMatrixIds`: filter `viewOrderIds` to
ids that still exist and are active (pinned-active or the focus id), then
append every remaining active existing id not already present, in insertion
order. -/
def selectedMatrixIdsSpec (matrices : List Matrix) (activePinnedIds : List String)
    (focusMatrixId : String) (viewOrderIds : List String) : List String :=
  let isActive (id : String) : Prop :=
    id ∈ activePinnedIds ∨ (focusMatrixId ≠ "none" ∧ id = focusMatrixId)
  let valid (id : String) : Prop := id ∈ matrices.map (·.id)
  let filtered := viewOrderIds.filter (fun id => valid id ∧ isActive id)
  let activeOrder := jsSetOfList
    (activePinnedIds ++ if focusMatrixId ≠ "none" then [focusMatrixId] else [])
  filtered ++ activeOrder.filter (fun id => valid id ∧ id ∉ filtered)

/-- The `order` fields of the live tasks of a scope, in collection order. -/
def scopeOrders (ts : List Task) (m : String) (u : Urgency) : List (Option Int) :=
  (ts.filter (inScope m u)).map (·.order)

/-- The spec's per-scope invariant: the live tasks of the scope carry the
orders `0, …, n-1` exactly (as a multiset). -/
def ScopeContiguous (ts : List Task) (m : String) (u : Urgency) : Prop :=
  List.Perm (scopeOrders ts m u)
    ((List.range (ts.filter (inScope m u)).length).map (fun i => some (Int.ofNat i)))

instance (ts : List Task) (m : String) (u : Urgency) :
    Decidable (ScopeContiguous ts m u) := by
  unfold ScopeContiguous; exact List.decidablePerm _ _

/-- Every `(matrixId, urgency)` scope satisfies the order invariant. -/
def Contiguous (ts : List Task) : Prop := ∀ m u, ScopeContiguous ts m u

/-- Well-formed task collection: distinct ids (the data model's id uniqueness)
and the per-scope order invariant. -/
def WF (ts : List Task) : Prop := (idsOf ts).Nodup ∧ Contiguous ts

/-- The operations quantified over by the order-contiguity claim. -/
inductive Op where
  | add (text : String) (matrixId : String) (urgency : Urgency)
        (newId : Nat) (createdAt : String)
  | drag (selected : List String) (activeId : Nat) (over : Option OverTarget)
  | merge (sourceId destId : String)
deriving DecidableEq, Repr

/-- Run one operation on the task collection. -/
def applyOp (ts : List Task) : Op → List Task
  | .add text m u nid ca => addTask ts text m u nid ca
  | .drag sel aid over => handleDragEnd sel ts aid over
  | .merge s d => mergeMatrixIntoTasks ts s d

/-- Run a sequence of operations. -/
def applyOps (ts : List Task) : List Op → List Task
  | [] => ts
  | op :: ops => applyOps (applyOp ts op) ops

/-- `addTask` creates its task with a fresh id (`Date.now()`/monotonic ids per
the data model); other operations have no id input. -/
def opsFresh (ts : List Task) : List Op → Bool
  | [] => true
  | op :: ops =>
    (match op with
     | .add _ _ _ nid _ => !(idsOf ts).contains nid
     | _ => true) && opsFresh (applyOp ts op) ops

/-- Two live tasks that share id `5` in scope `("a", High)` with orders `0`
and `1` (a state reachable by importing a file whose `tasks` array repeats an
id). -/
def dupIdTasks : List Task :=
  [⟨5, "x", some "a", .High, .NotDone, some 0, none, none, none, none⟩,
   ⟨5, "y", some "a", .High, .NotDone, some 1, none, none, none, none⟩]

/-- Concrete tasks A(order 0), B(order 1), C(order 2) in scope
`("work", High)`. -/
def taskA : Task := ⟨1, "A", some "work", .High, .NotDone, some 0, none, none, none, none⟩

/-- See `taskA`. -/
def taskB : Task := ⟨2, "B", some "work", .High, .NotDone, some 1, none, none, none, none⟩

/-- See `taskA`. -/
def taskC : Task := ⟨3, "C", some "work", .High, .NotDone, some 2, none, none, none, none⟩

/-- A live task in matrix `"personal"` (drop target for the cross-matrix
drag claim). -/
def taskP : Task := ⟨4, "P", some "personal", .High, .NotDone, some 0, none, none, none, none⟩

/-- A legacy-shape task: no `matrixId`, a flat `tag` field, no `order`. -/
def legacyTask : Task :=
  ⟨9, "z", none, .Low, .NotDone, none, some "Personal", some "c0", none, none⟩

/-- An archived task (used against the toggle-complete claim). -/
def archivedTask : Task :=
  ⟨7, "old", some "work", .Medium, .Archived, some 0, none, none, some "t0", none⟩

/-! ### Lemmas about the id→index map (`Map.set`/`Map.get`) -/

theorem mapGetLast_step_not_mem {k : Nat} (ps : List (Nat × Nat))
    (acc : Option Nat) (h : ∀ p ∈ ps, p.1 ≠ k) :
    ps.foldl (fun acc p => if p.1 = k then some p.2 else acc) acc = acc := by
  induction ps generalizing acc with
  | nil => rfl
  | cons p ps ih =>
    rw [List.foldl_cons, if_neg (h p (List.mem_cons_self p ps))]
    exact ih acc (fun q hq => h q (List.mem_cons_of_mem p hq))

theorem mapGetLast_cons_ne {p : Nat × Nat} {ps : List (Nat × Nat)} {k : Nat}
    (h : p.1 ≠ k) : mapGetLast (p :: ps) k = mapGetLast ps k := by
  unfold mapGetLast
  rw [List.foldl_cons, if_neg h]

theorem mapGetLast_cons_self {k v : Nat} {ps : List (Nat × Nat)}
    (h : ∀ q ∈ ps, q.1 ≠ k) : mapGetLast ((k, v) :: ps) k = some v := by
  unfold mapGetLast
  rw [List.foldl_cons, if_pos rfl]
  exact mapGetLast_step_not_mem ps (some v) h

theorem buildIdxMap_keys (ks : List Nat) (i : Nat) :
    (buildIdxMap i ks).map (·.1) = ks := by
  induction ks generalizing i with
  | nil => rfl
  | cons k ks ih => simp [buildIdxMap, ih]

theorem mapGetLast_buildIdxMap_not_mem {ks : List Nat} {k : Nat} (i : Nat)
    (h : k ∉ ks) : mapGetLast (buildIdxMap i ks) k = none := by
  apply mapGetLast_step_not_mem
  intro p hp hk
  exact h (by
    have h2 : p.1 ∈ (buildIdxMap i ks).map (·.1) := List.mem_map_of_mem (·.1) hp
    rw [buildIdxMap_keys] at h2
    rwa [hk] at h2)

theorem mapGetLast_buildIdxMap_indexOf {ks : List Nat} {k : Nat}
    (hnd : ks.Nodup) (hmem : k ∈ ks) (i : Nat) :
    mapGetLast (buildIdxMap i ks) k = some (i + ks.indexOf k) := by
  induction ks generalizing i with
  | nil => cases hmem
  | cons k0 ks ih =>
    by_cases hk : k0 = k
    · subst hk
      have hnotin : k0 ∉ ks := (List.nodup_cons.mp hnd).1
      rw [show buildIdxMap i (k0 :: ks) = (k0, i) :: buildIdxMap (i + 1) ks from rfl]
      rw [mapGetLast_cons_self (fun q hq hqk => hnotin (by
        have h2 : q.1 ∈ (buildIdxMap (i + 1) ks).map (·.1) := List.mem_map_of_mem (·.1) hq
        rw [buildIdxMap_keys] at h2
        rwa [hqk] at h2))]
      simp [List.indexOf_cons_self]
    · have hmem' : k ∈ ks := by
        rcases List.mem_cons.mp hmem with h | h
        · exact absurd h.symm hk
        · exact h
      rw [show buildIdxMap i (k0 :: ks) = (k0, i) :: buildIdxMap (i + 1) ks from rfl]
      rw [mapGetLast_cons_ne hk]
      rw [ih (List.nodup_cons.mp hnd).2 hmem' (i + 1)]
      have : (k0 :: ks).indexOf k = ks.indexOf k + 1 := by
        simp [List.indexOf_cons, beq_iff_eq, hk]
      rw [this]
      exact congrArg some (by omega)

theorem mapGetLast_step_isSome {k : Nat} (ps : List (Nat × Nat))
    (acc : Option Nat) (h : acc.isSome) :
    (ps.foldl (fun acc p => if p.1 = k then some p.2 else acc) acc).isSome := by
  induction ps generalizing acc with
  | nil => exact h
  | cons p ps ih =>
    rw [List.foldl_cons]
    by_cases hp : p.1 = k
    · exact ih _ (by rw [if_pos hp]; rfl)
    · rw [if_neg hp]; exact ih _ h

theorem mapGetLast_buildIdxMap_isSome {ks : List Nat} {k : Nat}
    (hmem : k ∈ ks) (i : Nat) : (mapGetLast (buildIdxMap i ks) k).isSome := by
  induction ks generalizing i with
  | nil => cases hmem
  | cons k0 ks ih =>
    rw [show buildIdxMap i (k0 :: ks) = (k0, i) :: buildIdxMap (i + 1) ks from rfl]
    by_cases hk : k0 = k
    · unfold mapGetLast
      rw [List.foldl_cons, if_pos hk]
      exact mapGetLast_step_isSome _ _ rfl
    · rcases List.mem_cons.mp hmem with h | h
      · exact absurd h.symm hk
      · rw [mapGetLast_cons_ne hk]
        exact ih h (i + 1)

/-! ### Lemmas about the canonical sort -/

theorem insertSorted_perm (a : Task) (l : List Task) :
    List.Perm (insertSorted a l) (a :: l) := by
  induction l with
  | nil => exact List.Perm.refl _
  | cons b l ih =>
    unfold insertSorted
    by_cases h : taskLt b a
    · rw [if_pos h]
      exact ((ih.cons b).trans (List.Perm.swap a b l))
    · rw [if_neg h]

theorem sortTasks_perm (l : List Task) : List.Perm (sortTasks l) l := by
  induction l with
  | nil => exact List.Perm.refl _
  | cons a l ih =>
    have : sortTasks (a :: l) = insertSorted a (sortTasks l) := rfl
    rw [this]
    exact (insertSorted_perm a (sortTasks l)).trans (ih.cons a)

theorem taskLe_of_lt {a b : Task} (h : taskLt a b) : taskLe a b := by
  unfold taskLt at h
  unfold taskLe
  rcases h with h | ⟨h1, h2⟩
  · exact Or.inl h
  · exact Or.inr ⟨h1, Nat.le_of_lt h2⟩

theorem taskLe_of_not_lt {a b : Task} (h : ¬ taskLt b a) : taskLe a b := by
  unfold taskLt at h
  push_neg at h
  unfold taskLe
  rcases lt_trichotomy (orderVal a) (orderVal b) with h1 | h1 | h1
  · exact Or.inl h1
  · exact Or.inr ⟨h1, h.2 h1.symm⟩
  · exact absurd h1 (not_lt.mpr h.1)

theorem taskLe_trans {a b c : Task} (h1 : taskLe a b) (h2 : taskLe b c) :
    taskLe a c := by
  unfold taskLe at h1 h2 ⊢
  rcases h1 with h1 | ⟨h1, h1'⟩ <;> rcases h2 with h2 | ⟨h2, h2'⟩
  · exact Or.inl (h1.trans h2)
  · exact Or.inl (h2 ▸ h1)
  · exact Or.inl (h1 ▸ h2)
  · exact Or.inr ⟨h1.trans h2, h1'.trans h2'⟩

theorem mem_insertSorted {x a : Task} {l : List Task}
    (h : x ∈ insertSorted a l) : x = a ∨ x ∈ l :=
  (List.Perm.mem_iff (insertSorted_perm a l)).mp h |> List.mem_cons.mp

theorem insertSorted_pairwise {a : Task} {l : List Task}
    (h : List.Pairwise taskLe l) :
    List.Pairwise taskLe (insertSorted a l) := by
  induction l with
  | nil => exact List.pairwise_singleton _ _
  | cons b l ih =>
    unfold insertSorted
    by_cases hba : taskLt b a
    · rw [if_pos hba]
      rcases List.pairwise_cons.mp h with ⟨hb, hl⟩
      refine List.pairwise_cons.mpr ⟨?_, ih hl⟩
      intro x hx
      rcases mem_insertSorted hx with rfl | hx
      · exact taskLe_of_lt hba
      · exact hb x hx
    · rw [if_neg hba]
      refine List.pairwise_cons.mpr ⟨?_, h⟩
      intro x hx
      rcases List.mem_cons.mp hx with rfl | hx
      · exact taskLe_of_not_lt hba
      · exact taskLe_trans (taskLe_of_not_lt hba)
          ((List.pairwise_cons.mp h).1 x hx)

theorem sortTasks_pairwise (l : List Task) :
    List.Pairwise taskLe (sortTasks l) := by
  induction l with
  | nil => exact List.Pairwise.nil
  | cons a l ih => exact insertSorted_pairwise ih

/-! ### Generic map/filter lemmas -/

theorem filter_map_pres {f : Task → Task} {p : Task → Bool}
    (h : ∀ t, p (f t) = p t) (ts : List Task) :
    (ts.map f).filter p = (ts.filter p).map f := by
  induction ts with
  | nil => rfl
  | cons t ts ih =>
    rw [List.map_cons, List.filter_cons, List.filter_cons, h t]
    by_cases hp : p t
    · rw [if_pos hp, if_pos hp, List.map_cons, ih]
    · rw [if_neg hp, if_neg hp, ih]

theorem idsOf_map {f : Task → Task} (h : ∀ t, (f t).id = t.id) (ts : List Task) :
    idsOf (ts.map f) = idsOf ts := by
  unfold idsOf
  rw [List.map_map]
  exact List.map_congr_left (fun t _ => h t)

/-! ### Lemmas about `applyOrderMap` (the shared order-rewrite step) -/

theorem applyOrderFun_id (ks : List Nat) (t : Task) :
    (applyOrderFun ks t).id = t.id := by
  unfold applyOrderFun
  cases mapGetLast (buildIdxMap 0 ks) t.id <;> rfl

theorem applyOrderFun_inScope (ks : List Nat) (m : String) (u : Urgency)
    (t : Task) : inScope m u (applyOrderFun ks t) = inScope m u t := by
  unfold applyOrderFun
  cases mapGetLast (buildIdxMap 0 ks) t.id <;> rfl

theorem applyOrderFun_not_mem {ks : List Nat} {t : Task} (h : t.id ∉ ks) :
    applyOrderFun ks t = t := by
  unfold applyOrderFun
  rw [mapGetLast_buildIdxMap_not_mem 0 h]

theorem applyOrderFun_mem_indexOf {ks : List Nat} {t : Task}
    (hnd : ks.Nodup) (h : t.id ∈ ks) :
    applyOrderFun ks t = { t with order := some ((ks.indexOf t.id : Nat) : Int) } := by
  unfold applyOrderFun
  rw [mapGetLast_buildIdxMap_indexOf hnd h 0]
  simp

theorem map_mapGetLast_buildIdxMap (ks : List Nat) (hnd : ks.Nodup) (i : Nat) :
    ks.map (fun k => mapGetLast (buildIdxMap i ks) k) =
      (List.range' i ks.length).map some := by
  induction ks generalizing i with
  | nil => rfl
  | cons k0 ks ih =>
    have hnotin : k0 ∉ ks := (List.nodup_cons.mp hnd).1
    have hkeys : ∀ q ∈ buildIdxMap (i + 1) ks, q.1 ≠ k0 := by
      intro q hq hqk
      apply hnotin
      have h2 : q.1 ∈ (buildIdxMap (i + 1) ks).map (·.1) := List.mem_map_of_mem (·.1) hq
      rw [buildIdxMap_keys] at h2
      rwa [hqk] at h2
    rw [List.map_cons]
    rw [show buildIdxMap i (k0 :: ks) = (k0, i) :: buildIdxMap (i + 1) ks from rfl]
    rw [mapGetLast_cons_self hkeys]
    rw [List.length_cons, List.range'_succ, List.map_cons]
    congr 1
    rw [List.map_congr_left (l := ks)
      (g := fun k => mapGetLast (buildIdxMap (i + 1) ks) k)
      (fun k hk => mapGetLast_cons_ne (p := (k0, i)) (fun h => hnotin (by
        rw [show k0 = k from h]; exact hk)))]
    exact ih (List.nodup_cons.mp hnd).2 (i + 1)

theorem nodup_idsOf_filter {ts : List Task} (hids : (idsOf ts).Nodup)
    (p : Task → Bool) : (idsOf (ts.filter p)).Nodup := by
  have h := List.Sublist.map (fun t : Task => t.id)
    (List.filter_sublist (p := p) ts)
  exact h.nodup hids

theorem scopeOrders_applyOrderMap {ts : List Task} {ks : List Nat}
    {m : String} {u : Urgency}
    (hids : (idsOf ts).Nodup)
    (hks : List.Perm ks (idsOf (ts.filter (inScope m u)))) :
    List.Perm (scopeOrders (applyOrderMap ts ks) m u)
      ((List.range ks.length).map (fun i => some (Int.ofNat i))) := by
  have hnd : ks.Nodup :=
    (hks.nodup_iff).mpr (nodup_idsOf_filter hids (inScope m u))
  have hfil : (applyOrderMap ts ks).filter (inScope m u)
      = (ts.filter (inScope m u)).map (applyOrderFun ks) := by
    unfold applyOrderMap
    exact filter_map_pres (applyOrderFun_inScope ks m u) ts
  unfold scopeOrders
  rw [hfil, List.map_map]
  have hpoint : ∀ t ∈ ts.filter (inScope m u),
      ((·.order) ∘ applyOrderFun ks) t
        = (fun k => (mapGetLast (buildIdxMap 0 ks) k).map (fun n => Int.ofNat n)) t.id := by
    intro t ht
    have hmem : t.id ∈ ks := by
      rw [hks.mem_iff]
      exact List.mem_map_of_mem (·.id) ht
    have hs := mapGetLast_buildIdxMap_isSome hmem 0
    cases hmg : mapGetLast (buildIdxMap 0 ks) t.id with
    | none => rw [hmg] at hs; cases hs
    | some n =>
      show (applyOrderFun ks t).order = _
      unfold applyOrderFun
      simp [hmg]
  rw [List.map_congr_left hpoint]
  have e1 : (ts.filter (inScope m u)).map
        (fun t => (fun k => (mapGetLast (buildIdxMap 0 ks) k).map (fun n => Int.ofNat n)) t.id)
      = (idsOf (ts.filter (inScope m u))).map
        (fun k => (mapGetLast (buildIdxMap 0 ks) k).map (fun n => Int.ofNat n)) := by
    unfold idsOf
    rw [List.map_map]
    rfl
  rw [e1]
  refine List.Perm.trans ((hks.symm).map _) ?_
  have e2 : ks.map (fun k => (mapGetLast (buildIdxMap 0 ks) k).map (fun n => Int.ofNat n))
      = (ks.map (fun k => mapGetLast (buildIdxMap 0 ks) k)).map
        (Option.map (fun n => Int.ofNat n)) := by
    rw [List.map_map]
    rfl
  have e3 : ((List.range' 0 ks.length).map some).map
        (Option.map (fun n => Int.ofNat n))
      = (List.range ks.length).map (fun i => some (Int.ofNat i)) := by
    rw [List.range_eq_range', List.map_map]
    exact List.map_congr_left (fun i _ => rfl)
  rw [e2, map_mapGetLast_buildIdxMap ks hnd 0, e3]

theorem inScope_unique {m m' : String} {u u' : Urgency} {t : Task}
    (h : inScope m u t) (h' : inScope m' u' t) : m = m' ∧ u = u' := by
  unfold inScope at h h'
  rcases of_decide_eq_true h with ⟨h1, h2, _⟩
  rcases of_decide_eq_true h' with ⟨h1', h2', _⟩
  rw [h1] at h1'
  exact ⟨Option.some_injective _ h1', h2 ▸ h2'⟩

theorem filter_applyOrderMap_other {ts : List Task} {ks : List Nat}
    {m m' : String} {u u' : Urgency}
    (hids : (idsOf ts).Nodup)
    (hks : List.Perm ks (idsOf (ts.filter (inScope m u))))
    (hne : ¬ (m' = m ∧ u' = u)) :
    (applyOrderMap ts ks).filter (inScope m' u') = ts.filter (inScope m' u') := by
  unfold applyOrderMap
  rw [filter_map_pres (applyOrderFun_inScope ks m' u') ts]
  have hpoint : ∀ t ∈ ts.filter (inScope m' u'), applyOrderFun ks t = t := by
    intro t ht
    apply applyOrderFun_not_mem
    intro hmem
    rw [hks.mem_iff] at hmem
    rcases List.mem_map.mp hmem with ⟨s, hs, hsid⟩
    have hteq : s = t := List.inj_on_of_nodup_map hids
      (List.mem_of_mem_filter hs) (List.mem_of_mem_filter ht) hsid
    have hscope : inScope m u t := hteq ▸ (List.mem_filter.mp hs).2
    have hscope' : inScope m' u' t := (List.mem_filter.mp ht).2
    exact hne ⟨(inScope_unique hscope' hscope).1, (inScope_unique hscope' hscope).2⟩
  rw [List.map_congr_left hpoint, List.map_id']

theorem idsOf_applyOrderMap (ts : List Task) (ks : List Nat) :
    idsOf (applyOrderMap ts ks) = idsOf ts :=
  idsOf_map (applyOrderFun_id ks) ts

theorem scopeContiguous_of_filter_eq {ts ts' : List Task} {m : String}
    {u : Urgency}
    (hfil : ts'.filter (inScope m u) = ts.filter (inScope m u))
    (h : ScopeContiguous ts m u) : ScopeContiguous ts' m u := by
  unfold ScopeContiguous scopeOrders at h ⊢
  rw [hfil]
  exact h

theorem scopeContiguous_applyOrderMap {ts : List Task} {ks : List Nat}
    {m : String} {u : Urgency}
    (hids : (idsOf ts).Nodup)
    (hks : List.Perm ks (idsOf (ts.filter (inScope m u)))) :
    ScopeContiguous (applyOrderMap ts ks) m u := by
  unfold ScopeContiguous
  have hlen : ((applyOrderMap ts ks).filter (inScope m u)).length = ks.length := by
    unfold applyOrderMap
    rw [filter_map_pres (applyOrderFun_inScope ks m u) ts, List.length_map]
    have := hks.length_eq
    unfold idsOf at this
    rw [List.length_map] at this
    omega
  rw [hlen]
  exact scopeOrders_applyOrderMap hids hks

theorem normalizeOrders_ks_perm (ts : List Task) (m : String) (u : Urgency) :
    List.Perm ((sortTasks (ts.filter (inScope m u))).map (·.id))
      (idsOf (ts.filter (inScope m u))) :=
  (sortTasks_perm (ts.filter (inScope m u))).map (·.id)

theorem scopeContiguous_normalizeOrders {ts : List Task} {m : String}
    {u : Urgency} (hids : (idsOf ts).Nodup) :
    ScopeContiguous (normalizeOrders ts m u) m u :=
  scopeContiguous_applyOrderMap hids (normalizeOrders_ks_perm ts m u)

theorem filter_normalizeOrders_other {ts : List Task} {m m' : String}
    {u u' : Urgency} (hids : (idsOf ts).Nodup) (hne : ¬ (m' = m ∧ u' = u)) :
    (normalizeOrders ts m u).filter (inScope m' u') = ts.filter (inScope m' u') :=
  filter_applyOrderMap_other hids (normalizeOrders_ks_perm ts m u) hne

theorem idsOf_normalizeOrders (ts : List Task) (m : String) (u : Urgency) :
    idsOf (normalizeOrders ts m u) = idsOf ts :=
  idsOf_applyOrderMap ts _

/-! ### `getNextOrder` on a contiguous scope -/

theorem foldl_max_perm {l l' : List Int} (h : List.Perm l l') :
    ∀ a : Int, l.foldl max a = l'.foldl max a := by
  induction h with
  | nil => intro a; rfl
  | cons x _ ih =>
    intro a
    rw [List.foldl_cons, List.foldl_cons]
    exact ih _
  | swap x y l =>
    intro a
    rw [List.foldl_cons, List.foldl_cons, List.foldl_cons, List.foldl_cons]
    have : max (max a y) x = max (max a x) y := by
      rw [max_assoc, max_comm y x, ← max_assoc]
    rw [this]
  | trans _ _ ih1 ih2 =>
    intro a
    exact (ih1 a).trans (ih2 a)

theorem foldl_max_range (n : Nat) :
    ((List.range n).map (fun i => Int.ofNat i)).foldl max (-1) = Int.ofNat n - 1 := by
  induction n with
  | zero => rfl
  | succ n ih =>
    rw [List.range_succ, List.map_append, List.foldl_append, ih]
    show max (Int.ofNat n - 1) (Int.ofNat n) = Int.ofNat (n + 1) - 1
    rw [max_eq_right (by omega)]
    rw [show Int.ofNat (n + 1) = Int.ofNat n + 1 from rfl]
    omega

theorem scope_order_isSome {ts : List Task} {m : String} {u : Urgency}
    (h : ScopeContiguous ts m u) :
    ∀ t ∈ ts.filter (inScope m u), t.order.isSome := by
  intro t ht
  have hmem : t.order ∈ scopeOrders ts m u := List.mem_map_of_mem (·.order) ht
  rw [h.mem_iff] at hmem
  rcases List.mem_map.mp hmem with ⟨i, _, hi⟩
  rw [← hi]
  rfl

theorem getNextOrder_of_contiguous {ts : List Task} {m : String} {u : Urgency}
    (h : ScopeContiguous ts m u) :
    getNextOrder ts m u = Int.ofNat (ts.filter (inScope m u)).length := by
  unfold getNextOrder
  have hfeq : ts.filter (fun t => inScope m u t && t.order.isSome)
      = ts.filter (inScope m u) := by
    apply List.filter_congr
    intro t ht
    cases hs : inScope m u t with
    | false => simp
    | true =>
      have htf : t ∈ ts.filter (inScope m u) := List.mem_filter.mpr ⟨ht, hs⟩
      have hsome : t.order.isSome := scope_order_isSome h t htf
      simp [hsome]
  rw [hfeq]
  have e0 : (ts.filter (inScope m u)).foldl (fun mx t => max mx (orderVal t)) (-1)
      = ((ts.filter (inScope m u)).map orderVal).foldl max (-1) := by
    rw [List.foldl_map]
  rw [e0]
  have hperm : List.Perm ((ts.filter (inScope m u)).map orderVal)
      ((List.range (ts.filter (inScope m u)).length).map (fun i => Int.ofNat i)) := by
    have h2 := h.map (fun o => o.getD 0)
    have eL : (scopeOrders ts m u).map (fun o => o.getD 0)
        = (ts.filter (inScope m u)).map orderVal := by
      unfold scopeOrders
      rw [List.map_map]
      exact List.map_congr_left (fun t _ => rfl)
    have eR : ((List.range (ts.filter (inScope m u)).length).map
          (fun i => some (Int.ofNat i))).map (fun o => o.getD 0)
        = (List.range (ts.filter (inScope m u)).length).map (fun i => Int.ofNat i) := by
      rw [List.map_map]
      exact List.map_congr_left (fun i _ => rfl)
    rw [eL, eR] at h2
    exact h2
  rw [foldl_max_perm hperm (-1), foldl_max_range]
  omega

/-! ### Preservation of the order invariant by the mutating operations -/

theorem find?_id_eq {ts : List Task} {aid : Nat} {a : Task}
    (h : ts.find? (fun t => t.id = aid) = some a) : a ∈ ts ∧ a.id = aid := by
  have hp := List.find?_some h
  exact ⟨List.mem_of_find?_eq_some h, of_decide_eq_true hp⟩

theorem exists_id_split {ts : List Task} {a : Task}
    (hids : (idsOf ts).Nodup) (ha : a ∈ ts) :
    ∃ l1 l2, ts = l1 ++ a :: l2 ∧ (∀ x ∈ l1, x.id ≠ a.id) ∧
      (∀ x ∈ l2, x.id ≠ a.id) := by
  rcases List.append_of_mem ha with ⟨l1, l2, rfl⟩
  refine ⟨l1, l2, rfl, ?_, ?_⟩
  · intro x hx hxa
    have h1 : (idsOf (l1 ++ a :: l2)) = idsOf l1 ++ a.id :: idsOf l2 := by
      unfold idsOf
      rw [List.map_append, List.map_cons]
    rw [h1] at hids
    have hdisj := (List.nodup_append.mp hids).2.2
    exact hdisj (by exact hxa ▸ List.mem_map_of_mem (·.id) hx)
      (List.mem_cons_self _ _)
  · intro x hx hxa
    have h1 : (idsOf (l1 ++ a :: l2)) = idsOf l1 ++ a.id :: idsOf l2 := by
      unfold idsOf
      rw [List.map_append, List.map_cons]
    rw [h1] at hids
    have hcons := (List.nodup_append.mp hids).2.1
    exact (List.nodup_cons.mp hcons).1 (hxa ▸ List.mem_map_of_mem (·.id) hx)

theorem filter_append_singleton_pos {p : Task → Bool} {x : Task}
    (ts : List Task) (hx : p x = true) :
    (ts ++ [x]).filter p = ts.filter p ++ [x] := by
  rw [List.filter_append, List.filter_cons, hx, if_pos rfl, List.filter_nil]

theorem filter_append_singleton_neg {p : Task → Bool} {x : Task}
    (ts : List Task) (hx : p x = false) :
    (ts ++ [x]).filter p = ts.filter p := by
  rw [List.filter_append, List.filter_cons, hx]
  simp

theorem scopeContiguous_snoc {ts : List Task} {x : Task} {m : String}
    {u : Urgency} (hc : ScopeContiguous ts m u) (hx : inScope m u x = true)
    (hord : x.order = some (Int.ofNat (ts.filter (inScope m u)).length)) :
    ScopeContiguous (ts ++ [x]) m u := by
  unfold ScopeContiguous scopeOrders at hc ⊢
  rw [filter_append_singleton_pos ts hx, List.map_append, List.length_append]
  show List.Perm (_ ++ [x.order]) _
  rw [hord]
  rw [show ((ts.filter (inScope m u)).length + [x].length)
      = (ts.filter (inScope m u)).length + 1 from rfl]
  rw [List.range_succ, List.map_append]
  exact hc.append_right _

theorem WF_addTask {ts : List Task} (h : WF ts) (txt m : String) (u : Urgency)
    {nid : Nat} (ca : String) (hfresh : nid ∉ idsOf ts) :
    WF (addTask ts txt m u nid ca) := by
  unfold addTask
  by_cases htxt : jsTrim txt = ""
  · rw [if_pos htxt]; exact h
  rw [if_neg htxt]
  constructor
  · unfold idsOf
    rw [List.map_append]
    rw [List.nodup_append]
    refine ⟨h.1, List.nodup_singleton _, ?_⟩
    intro x hx hx1
    rcases List.mem_singleton.mp hx1 with rfl
    exact hfresh hx
  · intro m' u'
    by_cases hmu : m' = m ∧ u' = u
    · rcases hmu with ⟨rfl, rfl⟩
      apply scopeContiguous_snoc (h.2 m' u')
      · unfold inScope isLive
        simp
      · show some (getNextOrder ts m' u') = _
        rw [getNextOrder_of_contiguous (h.2 m' u')]
    · refine scopeContiguous_of_filter_eq ?_ (h.2 m' u')
      apply filter_append_singleton_neg
      unfold inScope isLive
      simp only [decide_eq_false_iff_not]
      intro hcon
      rcases hcon with ⟨h1, h2, _⟩
      exact hmu ⟨(Option.some_injective _ h1).symm, h2.symm⟩

theorem inScope_elim {t : Task} {m : String} {u : Urgency}
    (h : inScope m u t = true) :
    t.matrixId = some m ∧ t.urgency = u ∧ isLive t = true := by
  unfold inScope at h
  exact of_decide_eq_true h

theorem inScope_false_of_ne_matrix {t : Task} {m : String} {u : Urgency}
    (h : t.matrixId ≠ some m) : inScope m u t = false := by
  unfold inScope
  apply decide_eq_false
  rintro ⟨h1, -, -⟩
  exact h h1

theorem inScope_false_of_ne_urgency {t : Task} {m : String} {u : Urgency}
    (h : t.urgency ≠ u) : inScope m u t = false := by
  unfold inScope
  apply decide_eq_false
  rintro ⟨-, h2, -⟩
  exact h h2

theorem filter_middle_pos {p : Task → Bool} (l1 l2 : List Task) {x : Task}
    (hx : p x = true) :
    (l1 ++ x :: l2).filter p = l1.filter p ++ x :: l2.filter p := by
  rw [List.filter_append, List.filter_cons, hx, if_pos rfl]

theorem filter_middle_neg {p : Task → Bool} (l1 l2 : List Task) {x : Task}
    (hx : p x = false) :
    (l1 ++ x :: l2).filter p = (l1 ++ l2).filter p := by
  rw [List.filter_append, List.filter_cons, hx, List.filter_append]
  simp

theorem perm_cons_append {α : Type} (a : α) (l : List α) :
    List.Perm (a :: l) (l ++ [a]) := by
  simpa using (@List.perm_middle _ a l []).symm

theorem scopeContiguous_middle {l1 l2 : List Task} {x : Task} {m : String}
    {u : Urgency} (hc : ScopeContiguous (l1 ++ l2) m u)
    (hx : inScope m u x = true)
    (hord : x.order = some (Int.ofNat (((l1 ++ l2).filter (inScope m u)).length))) :
    ScopeContiguous (l1 ++ x :: l2) m u := by
  unfold ScopeContiguous scopeOrders at hc ⊢
  have hf12 : (l1 ++ l2).filter (inScope m u)
      = l1.filter (inScope m u) ++ l2.filter (inScope m u) :=
    List.filter_append _ _
  rw [hf12] at hc hord
  rw [filter_middle_pos l1 l2 hx]
  rw [List.map_append, List.map_cons]
  have hlen : (l1.filter (inScope m u) ++ x :: l2.filter (inScope m u)).length
      = (l1.filter (inScope m u) ++ l2.filter (inScope m u)).length + 1 := by
    rw [List.length_append, List.length_cons, List.length_append]
    omega
  rw [hlen, List.range_succ, List.map_append]
  refine List.Perm.trans List.perm_middle ?_
  rw [hord, ← List.map_append]
  refine (List.Perm.cons _ hc).trans ?_
  exact perm_cons_append _ _

theorem WF_moveToUrgency {ts : List Task} (h : WF ts) {aid : Nat} {a : Task}
    {m : String} {newU : Urgency}
    (hfind : ts.find? (fun t => t.id = aid) = some a)
    (ham : a.matrixId = some m) (hneq : a.urgency ≠ newU) :
    WF (moveToUrgency ts aid m a.urgency newU) := by
  obtain ⟨haMem, haId⟩ := find?_id_eq hfind
  obtain ⟨l1, l2, hsplit, hl1, hl2⟩ := exists_id_split h.1 haMem
  have hshow : moveToUrgency ts aid m a.urgency newU
      = normalizeOrders (ts.map (fun t =>
          if t.id = aid then
            { t with urgency := newU, order := some (getNextOrder ts m newU) }
          else t)) m a.urgency := rfl
  set k := getNextOrder ts m newU with hk
  set g : Task → Task := fun t =>
    if t.id = aid then { t with urgency := newU, order := some k } else t
    with hgdef
  have hga : g a = { a with urgency := newU, order := some k } := by
    simp only [hgdef]
    rw [if_pos haId]
  have hgid : ∀ t, (g t).id = t.id := by
    intro t
    simp only [hgdef]
    by_cases ht : t.id = aid
    · rw [if_pos ht]
    · rw [if_neg ht]
  have hmoved : ts.map g = l1 ++ g a :: l2 := by
    rw [hsplit, List.map_append, List.map_cons]
    have e1 : l1.map g = l1 := by
      rw [List.map_congr_left (g := fun x => x)
        (fun x hx => by simp only [hgdef]; rw [if_neg (haId ▸ hl1 x hx)])]
      exact List.map_id' l1
    have e2 : l2.map g = l2 := by
      rw [List.map_congr_left (g := fun x => x)
        (fun x hx => by simp only [hgdef]; rw [if_neg (haId ▸ hl2 x hx)])]
      exact List.map_id' l2
    rw [e1, e2]
  have hids_moved : idsOf (ts.map g) = idsOf ts := idsOf_map hgid ts
  have hnd_moved : (idsOf (ts.map g)).Nodup := by
    rw [hids_moved]; exact h.1
  rw [hshow]
  constructor
  · rw [idsOf_normalizeOrders, hids_moved]
    exact h.1
  · intro m' u'
    by_cases hvac : m' = m ∧ u' = a.urgency
    · rcases hvac with ⟨rfl, rfl⟩
      exact scopeContiguous_normalizeOrders hnd_moved
    · apply scopeContiguous_of_filter_eq
        (filter_normalizeOrders_other hnd_moved hvac)
      by_cases hdest : m' = m ∧ u' = newU
      · rcases hdest with ⟨rfl, rfl⟩
        have hpa : inScope m' u' a = false :=
          inScope_false_of_ne_urgency hneq
        have hfts : ts.filter (inScope m' u') = ((l1 ++ l2).filter (inScope m' u')) := by
          rw [hsplit, filter_middle_neg l1 l2 hpa]
        cases hlive : isLive a with
        | false =>
          have hpa' : inScope m' u' (g a) = false := by
            rw [hga]
            unfold inScope
            apply decide_eq_false
            rintro ⟨-, -, hl⟩
            rw [show isLive { a with urgency := u', order := some k } = isLive a
              from rfl, hlive] at hl
            cases hl
          refine scopeContiguous_of_filter_eq ?_ (h.2 m' u')
          rw [hmoved, filter_middle_neg l1 l2 hpa', hfts]
        | true =>
          have hpa' : inScope m' u' (g a) = true := by
            rw [hga]
            unfold inScope
            apply decide_eq_true
            refine ⟨?_, rfl, ?_⟩
            · rw [show ({ a with urgency := u', order := some k } : Task).matrixId
                = a.matrixId from rfl, ham]
            · show isLive { a with urgency := u', order := some k } = true
              rw [show isLive { a with urgency := u', order := some k } = isLive a
                from rfl, hlive]
          rw [hmoved]
          apply scopeContiguous_middle
          · refine scopeContiguous_of_filter_eq ?_ (h.2 m' u')
            rw [hfts]
          · exact hpa'
          · rw [hga]
            show some k = _
            rw [hk, ← hfts]
            rw [getNextOrder_of_contiguous (h.2 m' u')]
      · have hpa : inScope m' u' a = false := by
          unfold inScope
          apply decide_eq_false
          rintro ⟨h1, h2, -⟩
          rw [ham] at h1
          exact hvac ⟨(Option.some_injective _ h1.symm), h2.symm⟩
        have hpa' : inScope m' u' (g a) = false := by
          rw [hga]
          unfold inScope
          apply decide_eq_false
          rintro ⟨h1, h2, -⟩
          rw [show ({ a with urgency := newU, order := some k } : Task).matrixId
            = a.matrixId from rfl, ham] at h1
          rw [show ({ a with urgency := newU, order := some k } : Task).urgency
            = newU from rfl] at h2
          exact hdest ⟨(Option.some_injective _ h1.symm), h2.symm⟩
        refine scopeContiguous_of_filter_eq ?_ (h.2 m' u')
        rw [hmoved, filter_middle_neg l1 l2 hpa', hsplit,
          filter_middle_neg l1 l2 hpa]

theorem getElem?_of_indexOf? {l : List Nat} {a i : Nat}
    (h : List.indexOf? a l = some i) : l[i]? = some a := by
  induction l generalizing i with
  | nil => simp [List.indexOf?] at h
  | cons x xs ih =>
    rw [List.indexOf?_cons] at h
    by_cases hx : (x == a) = true
    · rw [if_pos hx] at h
      cases h
      have hxa : x = a := by simpa using hx
      simp [hxa]
    · rw [if_neg hx] at h
      rcases Option.map_eq_some'.mp h with ⟨j, hj, rfl⟩
      simpa using ih hj

theorem cons_eraseIdx_perm {α : Type} :
    ∀ (l : List α) (i : Nat) (x : α), l[i]? = some x →
      List.Perm (x :: l.eraseIdx i) l := by
  intro l
  induction l with
  | nil => intro i x h; simp at h
  | cons y l ih =>
    intro i x h
    cases i with
    | zero =>
      simp at h
      rw [h]
      exact List.Perm.refl _
    | succ i =>
      simp only [List.getElem?_cons_succ] at h
      show List.Perm (x :: y :: l.eraseIdx i) (y :: l)
      exact (List.Perm.swap y x _).trans ((ih i x h).cons y)

theorem arrayMove_perm {α : Type} {items : List α} {f t : Nat} {x : α}
    (h : items[f]? = some x) : List.Perm (arrayMove items f t) items := by
  unfold arrayMove
  rw [h]
  refine List.Perm.trans List.perm_middle ?_
  rw [List.take_append_drop]
  exact cons_eraseIdx_perm items f x h

theorem reorderWithin_eq (ts : List Task) (aid oid : Nat) (m : String)
    (u : Urgency) :
    reorderWithin ts aid oid m u =
      match List.indexOf? aid ((sortTasks (ts.filter (inScope m u))).map (·.id)),
            List.indexOf? oid ((sortTasks (ts.filter (inScope m u))).map (·.id)) with
      | some oldIndex, some newIndex =>
          applyOrderMap ts
            (arrayMove ((sortTasks (ts.filter (inScope m u))).map (·.id))
              oldIndex newIndex)
      | _, _ => ts := rfl

theorem WF_reorderWithin {ts : List Task} (h : WF ts) (aid oid : Nat)
    (m : String) (u : Urgency) : WF (reorderWithin ts aid oid m u) := by
  rw [reorderWithin_eq]
  cases h1 : List.indexOf? aid ((sortTasks (ts.filter (inScope m u))).map (·.id)) with
  | none => exact h
  | some i =>
    cases h2 : List.indexOf? oid ((sortTasks (ts.filter (inScope m u))).map (·.id)) with
    | none => exact h
    | some j =>
      have hks : List.Perm
          (arrayMove ((sortTasks (ts.filter (inScope m u))).map (·.id)) i j)
          (idsOf (ts.filter (inScope m u))) :=
        (arrayMove_perm (getElem?_of_indexOf? h1)).trans
          (normalizeOrders_ks_perm ts m u)
      constructor
      · rw [idsOf_applyOrderMap]
        exact h.1
      · intro m' u'
        by_cases hmu : m' = m ∧ u' = u
        · rcases hmu with ⟨rfl, rfl⟩
          exact scopeContiguous_applyOrderMap h.1 hks
        · exact scopeContiguous_of_filter_eq
            (filter_applyOrderMap_other h.1 hks hmu) (h.2 m' u')

theorem WF_handleDragEnd {ts : List Task} (h : WF ts) (sel : List String)
    (aid : Nat) (over : Option OverTarget) : WF (handleDragEnd sel ts aid over) := by
  rcases over with _ | tgt
  · exact h
  cases tgt with
  | quadrant overU =>
    cases hfind : ts.find? (fun t => t.id = aid) with
    | none =>
      unfold handleDragEnd
      rw [hfind]
      exact h
    | some a =>
      unfold handleDragEnd
      rw [hfind]
      show WF (match a.matrixId with
        | none => ts
        | some am =>
          if am ∈ sel then
            (if a.urgency = overU then ts
             else moveToUrgency ts aid am a.urgency overU)
          else ts)
      cases ham : a.matrixId with
      | none => exact h
      | some am =>
        show WF (if am ∈ sel then
            (if a.urgency = overU then ts
             else moveToUrgency ts aid am a.urgency overU)
          else ts)
        by_cases hsel : am ∈ sel
        · rw [if_pos hsel]
          by_cases hequ : a.urgency = overU
          · rw [if_pos hequ]; exact h
          · rw [if_neg hequ]
            exact WF_moveToUrgency h hfind ham hequ
        · rw [if_neg hsel]; exact h
  | task oid =>
    cases hfind : ts.find? (fun t => t.id = aid) with
    | none =>
      unfold handleDragEnd
      rw [hfind]
      exact h
    | some a =>
      unfold handleDragEnd
      rw [hfind]
      show WF (match a.matrixId with
        | none => ts
        | some am =>
          if am ∈ sel then
            (match ts.find? (fun t => t.id = oid) with
             | none => ts
             | some overTask =>
               if overTask.matrixId ≠ a.matrixId then ts
               else if overTask.urgency ≠ a.urgency then
                 moveToUrgency ts aid am a.urgency overTask.urgency
               else if aid = oid then ts
               else reorderWithin ts aid oid am a.urgency)
          else ts)
      cases ham : a.matrixId with
      | none => exact h
      | some am =>
        show WF (if am ∈ sel then
            (match ts.find? (fun t => t.id = oid) with
             | none => ts
             | some overTask =>
               if overTask.matrixId ≠ some am then ts
               else if overTask.urgency ≠ a.urgency then
                 moveToUrgency ts aid am a.urgency overTask.urgency
               else if aid = oid then ts
               else reorderWithin ts aid oid am a.urgency)
          else ts)
        by_cases hsel : am ∈ sel
        · rw [if_pos hsel]
          cases hfo : ts.find? (fun t => t.id = oid) with
          | none => exact h
          | some b =>
            show WF (if b.matrixId ≠ some am then ts
              else if b.urgency ≠ a.urgency then
                moveToUrgency ts aid am a.urgency b.urgency
              else if aid = oid then ts
              else reorderWithin ts aid oid am a.urgency)
            by_cases hbm : b.matrixId ≠ some am
            · rw [if_pos hbm]; exact h
            · rw [if_neg hbm]
              by_cases hbu : b.urgency ≠ a.urgency
              · rw [if_pos hbu]
                exact WF_moveToUrgency h hfind ham (Ne.symm hbu)
              · rw [if_neg hbu]
                by_cases heq : aid = oid
                · rw [if_pos heq]; exact h
                · rw [if_neg heq]
                  exact WF_reorderWithin h aid oid am a.urgency
        · rw [if_neg hsel]; exact h

theorem reassignMatrix_id (s d : String) (t : Task) :
    (reassignMatrix s d t).id = t.id := by
  unfold reassignMatrix
  by_cases ht : t.matrixId = some s
  · rw [if_pos ht]
  · rw [if_neg ht]

theorem scopeContiguous_of_filter_nil {ts : List Task} {m : String}
    {u : Urgency} (h : ts.filter (inScope m u) = []) :
    ScopeContiguous ts m u := by
  unfold ScopeContiguous scopeOrders
  rw [h]
  exact List.Perm.nil

theorem WF_mergeMatrixIntoTasks {ts : List Task} (h : WF ts) (s d : String) :
    WF (mergeMatrixIntoTasks ts s d) := by
  unfold mergeMatrixIntoTasks
  by_cases h1 : s = "" ∨ s = "none"
  · rw [if_pos h1]; exact h
  rw [if_neg h1]
  by_cases h2 : d = "" ∨ s = d
  · rw [if_pos h2]; exact h
  rw [if_neg h2]
  have hsd : s ≠ d := fun he => h2 (Or.inr he)
  show WF (normalizeOrders (normalizeOrders (normalizeOrders (normalizeOrders
    (ts.map (reassignMatrix s d)) d .High) d .Medium) d .Low) d .None)
  have hnd0 : (idsOf (ts.map (reassignMatrix s d))).Nodup := by
    rw [idsOf_map (reassignMatrix_id s d)]
    exact h.1
  have hnd1 : (idsOf (normalizeOrders (ts.map (reassignMatrix s d)) d .High)).Nodup := by
    rw [idsOf_normalizeOrders]
    exact hnd0
  have hnd2 : (idsOf (normalizeOrders (normalizeOrders
      (ts.map (reassignMatrix s d)) d .High) d .Medium)).Nodup := by
    rw [idsOf_normalizeOrders]
    exact hnd1
  have hnd3 : (idsOf (normalizeOrders (normalizeOrders (normalizeOrders
      (ts.map (reassignMatrix s d)) d .High) d .Medium) d .Low)).Nodup := by
    rw [idsOf_normalizeOrders]
    exact hnd2
  have hsrc : ∀ u', (ts.map (reassignMatrix s d)).filter (inScope s u') = [] := by
    intro u'
    rw [List.filter_eq_nil_iff]
    intro x hx
    rcases List.mem_map.mp hx with ⟨t, -, rfl⟩
    unfold reassignMatrix
    by_cases ht : t.matrixId = some s
    · rw [if_pos ht]
      intro hcon
      have := (inScope_elim hcon).1
      rw [show ({ t with matrixId := some d } : Task).matrixId = some d from rfl]
        at this
      exact hsd (Option.some_injective _ this).symm
    · rw [if_neg ht]
      intro hcon
      exact ht (inScope_elim hcon).1
  have hother : ∀ m' u', m' ≠ s → m' ≠ d →
      (ts.map (reassignMatrix s d)).filter (inScope m' u')
        = ts.filter (inScope m' u') := by
    intro m' u' hms hmd
    have hpres : ∀ t, inScope m' u' (reassignMatrix s d t) = inScope m' u' t := by
      intro t
      unfold reassignMatrix
      by_cases ht : t.matrixId = some s
      · rw [if_pos ht]
        rw [inScope_false_of_ne_matrix (t := t)
          (by rw [ht]; exact fun hc => hms (Option.some_injective _ hc).symm)]
        rw [inScope_false_of_ne_matrix
          (by rw [show ({ t with matrixId := some d } : Task).matrixId = some d
              from rfl]
              exact fun hc => hmd (Option.some_injective _ hc).symm)]
      · rw [if_neg ht]
    rw [filter_map_pres hpres ts]
    rw [List.map_congr_left (g := fun x => x) (fun t ht => by
      unfold reassignMatrix
      rw [if_neg]
      intro hts
      have hmem := (List.mem_filter.mp ht).2
      have := (inScope_elim hmem).1
      rw [hts] at this
      exact hms (Option.some_injective _ this).symm)]
    exact List.map_id' _
  constructor
  · rw [idsOf_normalizeOrders, idsOf_normalizeOrders, idsOf_normalizeOrders,
      idsOf_normalizeOrders, idsOf_map (reassignMatrix_id s d)]
    exact h.1
  · intro m' u'
    by_cases hd : m' = d
    · subst hd
      cases u' with
      | High =>
        refine scopeContiguous_of_filter_eq
          (filter_normalizeOrders_other hnd3 ?_) ?_
        · rintro ⟨-, hc⟩; cases hc
        refine scopeContiguous_of_filter_eq
          (filter_normalizeOrders_other hnd2 ?_) ?_
        · rintro ⟨-, hc⟩; cases hc
        refine scopeContiguous_of_filter_eq
          (filter_normalizeOrders_other hnd1 ?_) ?_
        · rintro ⟨-, hc⟩; cases hc
        exact scopeContiguous_normalizeOrders hnd0
      | Medium =>
        refine scopeContiguous_of_filter_eq
          (filter_normalizeOrders_other hnd3 ?_) ?_
        · rintro ⟨-, hc⟩; cases hc
        refine scopeContiguous_of_filter_eq
          (filter_normalizeOrders_other hnd2 ?_) ?_
        · rintro ⟨-, hc⟩; cases hc
        exact scopeContiguous_normalizeOrders hnd1
      | Low =>
        refine scopeContiguous_of_filter_eq
          (filter_normalizeOrders_other hnd3 ?_) ?_
        · rintro ⟨-, hc⟩; cases hc
        exact scopeContiguous_normalizeOrders hnd2
      | None =>
        exact scopeContiguous_normalizeOrders hnd3
    · have hne4 : ∀ u0 : Urgency, ¬ (m' = d ∧ u' = u0) := fun u0 hc => hd hc.1
      refine scopeContiguous_of_filter_eq
        (filter_normalizeOrders_other hnd3 (hne4 _)) ?_
      refine scopeContiguous_of_filter_eq
        (filter_normalizeOrders_other hnd2 (hne4 _)) ?_
      refine scopeContiguous_of_filter_eq
        (filter_normalizeOrders_other hnd1 (hne4 _)) ?_
      refine scopeContiguous_of_filter_eq
        (filter_normalizeOrders_other hnd0 (hne4 _)) ?_
      by_cases hs : m' = s
      · subst hs
        exact scopeContiguous_of_filter_nil (hsrc u')
      · exact scopeContiguous_of_filter_eq (hother m' u' hs hd) (h.2 m' u')

theorem WF_applyOps {ts : List Task} (h : WF ts) (ops : List Op)
    (hfresh : opsFresh ts ops = true) : WF (applyOps ts ops) := by
  induction ops generalizing ts with
  | nil => exact h
  | cons op ops ih =>
    unfold opsFresh at hfresh
    rw [Bool.and_eq_true] at hfresh
    obtain ⟨hf1, hf2⟩ := hfresh
    have hstep : WF (applyOp ts op) := by
      cases op with
      | add txt m u nid ca =>
        apply WF_addTask h txt m u ca
        simpa using hf1
      | drag sel aid over => exact WF_handleDragEnd h sel aid over
      | merge s d => exact WF_mergeMatrixIntoTasks h s d
    exact ih hstep hf2

theorem contiguous_dupIdTasks : Contiguous dupIdTasks := by
  intro m u
  by_cases hm : m = "a"
  · subst hm
    cases u <;> decide
  · apply scopeContiguous_of_filter_nil
    rw [List.filter_eq_nil_iff]
    intro x hx
    intro hcon
    have h1 := (inScope_elim hcon).1
    have hxa : x.matrixId = some "a" := by
      rcases List.mem_cons.mp hx with rfl | hx2
      · rfl
      · rcases List.mem_cons.mp hx2 with rfl | hx3
        · rfl
        · cases hx3
    rw [hxa] at h1
    exact hm (Option.some_injective _ h1).symm

/-- C1 (counterexample): the contiguity claim as frozen is false on the code:
`dupIdTasks` satisfies the claimed starting invariant (every scope's live
`order` values are exactly `{0,…,n-1}`), yet after the single operation
`mergeMatrixInto "a" "b"` the scope `("b", High)` holds orders `{1, 1}` —
both same-id tasks receive the last index of the duplicate-keyed update map —
so the order values are no longer `{0,…,n-1}`. -/
theorem c1_order_contiguity_counterexample :
    Contiguous dupIdTasks ∧
      ¬ ScopeContiguous (applyOps dupIdTasks [Op.merge "a" "b"]) "b" Urgency.High :=
  ⟨contiguous_dupIdTasks, by decide⟩

/-- C1 (amended): starting from a state whose task ids are pairwise distinct
and in which every `(matrixId, urgency)` scope's live `order` values are
exactly `{0,…,n-1}`, any sequence of `addTask` (with an unused fresh id, as
the data model's unique-id assignment provides), drag move-to-quadrant, drag
reorder, and `mergeMatrixInto` operations leaves every scope's live `order`
values exactly `{0,…,n-1}` for its current live count. -/
theorem c1_order_contiguity (ts : List Task) (ops : List Op)
    (hids : (idsOf ts).Nodup) (hcont : Contiguous ts)
    (hfresh : opsFresh ts ops = true) :
    Contiguous (applyOps ts ops) :=
  (WF_applyOps ⟨hids, hcont⟩ ops hfresh).2

/-- C1 (witness): the amended theorem applied to the empty start state and a
concrete add / drag-to-quadrant / drag-reorder / merge sequence. -/
theorem c1_order_contiguity_witness :
    (idsOf ([] : List Task)).Nodup ∧ Contiguous ([] : List Task) ∧
      opsFresh ([] : List Task)
        [Op.add "alpha" "work" .High 1 "t1",
         Op.add "beta" "work" .High 2 "t2",
         Op.drag ["work"] 1 (some (.quadrant .Medium)),
         Op.drag ["work"] 2 (some (.task 1)),
         Op.merge "work" "personal"] = true ∧
      Contiguous (applyOps ([] : List Task)
        [Op.add "alpha" "work" .High 1 "t1",
         Op.add "beta" "work" .High 2 "t2",
         Op.drag ["work"] 1 (some (.quadrant .Medium)),
         Op.drag ["work"] 2 (some (.task 1)),
         Op.merge "work" "personal"]) :=
  ⟨by decide, fun _ _ => List.Perm.nil, by decide,
    c1_order_contiguity [] _ (by decide) (fun _ _ => List.Perm.nil) (by decide)⟩

/-- C2 (counterexample): `toggleComplete` does not leave an Archived task
unchanged — it flips its status to Completed, because the source flips
unconditionally based on the current value. -/
theorem c2_toggle_complete_counterexample :
    archivedTask.status = Status.Archived ∧
      toggleComplete [archivedTask] 7 ≠ [archivedTask] := by
  decide

/-- C2 (amended): `toggleComplete` flips the matched task's status
unconditionally — Completed becomes NotDone and any other status (NotDone,
Archived or Deleted) becomes Completed — changing no other field and leaving
non-matching tasks and the collection's length untouched. -/
theorem c2_toggle_complete (ts : List Task) (id i : Nat) {t t' : Task}
    (h1 : ts[i]? = some t) (h2 : (toggleComplete ts id)[i]? = some t') :
    t'.status = (if t.id = id then
        (if t.status = .Completed then Status.NotDone else Status.Completed)
      else t.status) ∧
    t'.id = t.id ∧ t'.text = t.text ∧ t'.matrixId = t.matrixId ∧
    t'.urgency = t.urgency ∧ t'.order = t.order ∧ t'.tag = t.tag ∧
    t'.createdAt = t.createdAt ∧ t'.archivedAt = t.archivedAt ∧
    t'.deletedAt = t.deletedAt ∧
    (toggleComplete ts id).length = ts.length := by
  unfold toggleComplete at h2 ⊢
  rw [List.getElem?_map, h1] at h2
  obtain rfl : _ = t' := Option.some_injective _ h2
  by_cases hid : t.id = id
  · simp [hid]
  · simp [hid]

/-- C2 (witness): the amended theorem evaluated at a one-element collection
holding an Archived task: the toggle sets its status to Completed. -/
theorem c2_toggle_complete_witness :
    ([archivedTask][0]? = some archivedTask) ∧
    ((toggleComplete [archivedTask] 7)[0]?
      = some { archivedTask with status := Status.Completed }) ∧
    ({ archivedTask with status := Status.Completed } : Task).status
      = (if archivedTask.id = 7 then
          (if archivedTask.status = .Completed then Status.NotDone
           else Status.Completed)
        else archivedTask.status) :=
  ⟨by decide, by decide,
    (c2_toggle_complete [archivedTask] 7 0 (by decide) (by decide)).1⟩

/-- C9: dropping a dragged task onto a task belonging to a different matrix
leaves the task collection completely unchanged. -/
theorem c9_cross_matrix_noop (sel : List String) (ts : List Task)
    (aid oid : Nat) {a b : Task}
    (hfa : ts.find? (fun t => t.id = aid) = some a)
    (hfo : ts.find? (fun t => t.id = oid) = some b)
    (hne : b.matrixId ≠ a.matrixId) :
    handleDragEnd sel ts aid (some (.task oid)) = ts := by
  unfold handleDragEnd
  rw [hfa]
  show (match a.matrixId with
    | none => ts
    | some am =>
      if am ∈ sel then
        (match ts.find? (fun t => t.id = oid) with
         | none => ts
         | some overTask =>
           if overTask.matrixId ≠ a.matrixId then ts
           else if overTask.urgency ≠ a.urgency then
             moveToUrgency ts aid am a.urgency overTask.urgency
           else if aid = oid then ts
           else reorderWithin ts aid oid am a.urgency)
      else ts) = ts
  cases ham : a.matrixId with
  | none => rfl
  | some am =>
    show (if am ∈ sel then
        (match ts.find? (fun t => t.id = oid) with
         | none => ts
         | some overTask =>
           if overTask.matrixId ≠ some am then ts
           else if overTask.urgency ≠ a.urgency then
             moveToUrgency ts aid am a.urgency overTask.urgency
           else if aid = oid then ts
           else reorderWithin ts aid oid am a.urgency)
      else ts) = ts
    by_cases hsel : am ∈ sel
    · rw [if_pos hsel, hfo]
      show (if b.matrixId ≠ some am then ts else _) = ts
      rw [if_pos (by rw [← ham]; exact hne)]
    · rw [if_neg hsel]

/-- C9 (witness): dragging task 1 (matrix `"work"`) onto task 4 (matrix
`"personal"`) changes nothing. -/
theorem c9_cross_matrix_noop_witness :
    ([taskA, taskP].find? (fun t => t.id = 1) = some taskA) ∧
    ([taskA, taskP].find? (fun t => t.id = 4) = some taskP) ∧
    taskP.matrixId ≠ taskA.matrixId ∧
    handleDragEnd ["work", "personal"] [taskA, taskP] 1
      (some (.task 4)) = [taskA, taskP] :=
  ⟨by decide, by decide, by decide,
    c9_cross_matrix_noop (a := taskA) (b := taskP) ["work", "personal"]
      [taskA, taskP] 1 4 (by decide) (by decide) (by decide)⟩

theorem idsOf_moveToUrgency (ts : List Task) (aid : Nat) (m : String)
    (oldU newU : Urgency) :
    idsOf (moveToUrgency ts aid m oldU newU) = idsOf ts := by
  show idsOf (normalizeOrders (ts.map fun t =>
    if t.id = aid then
      { t with urgency := newU, order := some (getNextOrder ts m newU) }
    else t) m oldU) = idsOf ts
  rw [idsOf_normalizeOrders]
  exact idsOf_map (fun t => by
    by_cases h : t.id = aid
    · rw [if_pos h]
    · rw [if_neg h]) ts

theorem idsOf_reorderWithin (ts : List Task) (aid oid : Nat) (m : String)
    (u : Urgency) : idsOf (reorderWithin ts aid oid m u) = idsOf ts := by
  rw [reorderWithin_eq]
  cases List.indexOf? aid ((sortTasks (ts.filter (inScope m u))).map (·.id)) with
  | none => rfl
  | some i =>
    cases List.indexOf? oid ((sortTasks (ts.filter (inScope m u))).map (·.id)) with
    | none => rfl
    | some j => exact idsOf_applyOrderMap ts _

theorem idsOf_handleDragEnd (sel : List String) (ts : List Task) (aid : Nat)
    (over : Option OverTarget) : idsOf (handleDragEnd sel ts aid over) = idsOf ts := by
  rcases over with _ | tgt
  · rfl
  cases tgt with
  | quadrant overU =>
    cases hfind : ts.find? (fun t => t.id = aid) with
    | none =>
      unfold handleDragEnd
      rw [hfind]
    | some a =>
      unfold handleDragEnd
      rw [hfind]
      show idsOf (match a.matrixId with
        | none => ts
        | some am =>
          if am ∈ sel then
            (if a.urgency = overU then ts
             else moveToUrgency ts aid am a.urgency overU)
          else ts) = idsOf ts
      cases a.matrixId with
      | none => rfl
      | some am =>
        show idsOf (if am ∈ sel then
            (if a.urgency = overU then ts
             else moveToUrgency ts aid am a.urgency overU)
          else ts) = idsOf ts
        by_cases hsel : am ∈ sel
        · rw [if_pos hsel]
          by_cases hequ : a.urgency = overU
          · rw [if_pos hequ]
          · rw [if_neg hequ]
            exact idsOf_moveToUrgency ts aid am a.urgency overU
        · rw [if_neg hsel]
  | task oid =>
    cases hfind : ts.find? (fun t => t.id = aid) with
    | none =>
      unfold handleDragEnd
      rw [hfind]
    | some a =>
      unfold handleDragEnd
      rw [hfind]
      show idsOf (match a.matrixId with
        | none => ts
        | some am =>
          if am ∈ sel then
            (match ts.find? (fun t => t.id = oid) with
             | none => ts
             | some overTask =>
               if overTask.matrixId ≠ a.matrixId then ts
               else if overTask.urgency ≠ a.urgency then
                 moveToUrgency ts aid am a.urgency overTask.urgency
               else if aid = oid then ts
               else reorderWithin ts aid oid am a.urgency)
          else ts) = idsOf ts
      cases a.matrixId with
      | none => rfl
      | some am =>
        show idsOf (if am ∈ sel then
            (match ts.find? (fun t => t.id = oid) with
             | none => ts
             | some overTask =>
               if overTask.matrixId ≠ some am then ts
               else if overTask.urgency ≠ a.urgency then
                 moveToUrgency ts aid am a.urgency overTask.urgency
               else if aid = oid then ts
               else reorderWithin ts aid oid am a.urgency)
          else ts) = idsOf ts
        by_cases hsel : am ∈ sel
        · rw [if_pos hsel]
          cases hfo : ts.find? (fun t => t.id = oid) with
          | none => rfl
          | some b =>
            show idsOf (if b.matrixId ≠ some am then ts
              else if b.urgency ≠ a.urgency then
                moveToUrgency ts aid am a.urgency b.urgency
              else if aid = oid then ts
              else reorderWithin ts aid oid am a.urgency) = idsOf ts
            by_cases hbm : b.matrixId ≠ some am
            · rw [if_pos hbm]
            · rw [if_neg hbm]
              by_cases hbu : b.urgency ≠ a.urgency
              · rw [if_pos hbu]
                exact idsOf_moveToUrgency ts aid am a.urgency b.urgency
              · rw [if_neg hbu]
                by_cases heq : aid = oid
                · rw [if_pos heq]
                · rw [if_neg heq]
                  exact idsOf_reorderWithin ts aid oid am a.urgency
        · rw [if_neg hsel]

theorem idsOf_map_cond {ts : List Task} {f : Task → Task}
    (h : ∀ t, (f t).id = t.id) : idsOf (ts.map f) = idsOf ts :=
  idsOf_map h ts

/-- C10: every task-mutating operation except `addTask` and the clear-deleted
purge preserves the list of task ids exactly: `toggleComplete`,
`archiveTask`, `unarchiveTask`, `deleteTask`, `commitEdit`,
`mergeMatrixInto`, `deleteMatrixArchiveTasks` and the drag-end interpreter
only rewrite fields of existing records, never insert or remove one. -/
theorem c10_id_preservation (ts : List Task) (i : Nat) (now : String)
    (eid : Option Nat) (draft : String) (s d mid : String)
    (sel : List String) (aid : Nat) (over : Option OverTarget) :
    idsOf (toggleComplete ts i) = idsOf ts ∧
    idsOf (archiveTask ts i now) = idsOf ts ∧
    idsOf (unarchiveTask ts i) = idsOf ts ∧
    idsOf (deleteTask ts i now) = idsOf ts ∧
    idsOf (commitEditTasks ts eid draft) = idsOf ts ∧
    idsOf (mergeMatrixIntoTasks ts s d) = idsOf ts ∧
    idsOf (deleteMatrixArchiveTasks ts mid now) = idsOf ts ∧
    idsOf (handleDragEnd sel ts aid over) = idsOf ts := by
  refine ⟨?_, ?_, ?_, ?_, ?_, ?_, ?_, ?_⟩
  · exact idsOf_map_cond (fun t => by
      by_cases h : t.id = i
      · rw [if_pos h]
      · rw [if_neg h])
  · exact idsOf_map_cond (fun t => by
      by_cases h : t.id = i
      · rw [if_pos h]
      · rw [if_neg h])
  · exact idsOf_map_cond (fun t => by
      by_cases h : t.id = i
      · rw [if_pos h]
      · rw [if_neg h])
  · exact idsOf_map_cond (fun t => by
      by_cases h : t.id = i
      · rw [if_pos h]
      · rw [if_neg h])
  · unfold commitEditTasks
    rcases eid with _ | e
    · rfl
    · show idsOf (if jsTrim draft = "" then ts
        else ts.map (fun t =>
          if t.id = e then { t with text := jsTrim draft } else t)) = idsOf ts
      by_cases hd : jsTrim draft = ""
      · rw [if_pos hd]
      · rw [if_neg hd]
        exact idsOf_map_cond (fun t => by
          by_cases h : t.id = e
          · rw [if_pos h]
          · rw [if_neg h])
  · unfold mergeMatrixIntoTasks
    by_cases h1 : s = "" ∨ s = "none"
    · rw [if_pos h1]
    · rw [if_neg h1]
      by_cases h2 : d = "" ∨ s = d
      · rw [if_pos h2]
      · rw [if_neg h2]
        show idsOf (normalizeOrders (normalizeOrders (normalizeOrders
          (normalizeOrders (ts.map (reassignMatrix s d)) d .High) d .Medium)
          d .Low) d .None) = idsOf ts
        rw [idsOf_normalizeOrders, idsOf_normalizeOrders,
          idsOf_normalizeOrders, idsOf_normalizeOrders]
        exact idsOf_map_cond (reassignMatrix_id s d)
  · unfold deleteMatrixArchiveTasks
    by_cases h1 : mid = "" ∨ mid = "none"
    · rw [if_pos h1]
    · rw [if_neg h1]
      exact idsOf_map_cond (fun t => by
        by_cases h : t.matrixId = some mid ∧ t.status ≠ .Deleted
        · rw [if_pos h]
        · rw [if_neg h])
  · exact idsOf_handleDragEnd sel ts aid over

/-- C3: when the import input is not an object, or its `matrices` or `tasks`
field is missing or not an array, the import surfaces a non-empty error and
both in-memory collections are exactly the ones from before the import. -/
theorem c3_import_atomic (ts0 : List Task) (ms0 : List Matrix)
    (input : ImportParse)
    (h : input = .notObject ∨
      ∃ oms ots, input = .obj oms ots ∧ (oms = none ∨ ots = none)) :
    (importDataFromFile ts0 ms0 input).tasks = ts0 ∧
    (importDataFromFile ts0 ms0 input).matrices = ms0 ∧
    (importDataFromFile ts0 ms0 input).importError ≠ "" := by
  rcases h with rfl | ⟨oms, ots, rfl, hcase⟩
  · exact ⟨rfl, rfl, by
      show ("Invalid file format." : String) ≠ ""
      decide⟩
  · rcases hcase with rfl | rfl
    · cases ots <;> exact ⟨rfl, rfl, by
        show ("Import file must include both matrices and tasks arrays." : String) ≠ ""
        decide⟩
    · cases oms <;> exact ⟨rfl, rfl, by
        show ("Import file must include both matrices and tasks arrays." : String) ≠ ""
        decide⟩

/-- C3 (witness): importing an object with matrices but no `tasks` array
leaves the prior task and matrix collections untouched and sets an error. -/
theorem c3_import_atomic_witness :
    ((ImportParse.obj (some DEFAULT_MATRICES) none = ImportParse.notObject) ∨
      ∃ oms ots, ImportParse.obj (some DEFAULT_MATRICES) none
          = ImportParse.obj oms ots ∧ (oms = none ∨ ots = none)) ∧
    (importDataFromFile [taskA] DEFAULT_MATRICES
      (ImportParse.obj (some DEFAULT_MATRICES) none)).tasks = [taskA] ∧
    (importDataFromFile [taskA] DEFAULT_MATRICES
      (ImportParse.obj (some DEFAULT_MATRICES) none)).matrices = DEFAULT_MATRICES ∧
    (importDataFromFile [taskA] DEFAULT_MATRICES
      (ImportParse.obj (some DEFAULT_MATRICES) none)).importError ≠ "" :=
  ⟨Or.inr ⟨some DEFAULT_MATRICES, none, rfl, Or.inr rfl⟩,
    c3_import_atomic [taskA] DEFAULT_MATRICES _
      (Or.inr ⟨some DEFAULT_MATRICES, none, rfl, Or.inr rfl⟩)⟩

/-- C8: the legacy-tag mapping stage of migration: a task whose `matrixId` is
absent gets matrixId `"personal"` for tag `"Personal"`, `"goals"` for
`"Goals"`, and `"work"` otherwise; the `tag` field is removed and every other
field is unchanged. -/
theorem c8_legacy_tag_mapping (t : Task) (h : t.matrixId = none) :
    (migrateOne t).matrixId
      = some (if t.tag = some "Personal" then "personal"
              else if t.tag = some "Goals" then "goals" else "work") ∧
    (migrateOne t).tag = none ∧
    (migrateOne t).id = t.id ∧ (migrateOne t).text = t.text ∧
    (migrateOne t).urgency = t.urgency ∧ (migrateOne t).status = t.status ∧
    (migrateOne t).order = t.order ∧ (migrateOne t).createdAt = t.createdAt ∧
    (migrateOne t).archivedAt = t.archivedAt ∧
    (migrateOne t).deletedAt = t.deletedAt := by
  unfold migrateOne
  rw [if_neg (by rintro ⟨h1, -⟩; exact h1 h)]
  unfold legacyMatrixIdOfTag
  exact ⟨rfl, rfl, rfl, rfl, rfl, rfl, rfl, rfl, rfl, rfl⟩

/-- C8 (witness): a legacy task tagged `"Personal"` migrates to matrixId
`"personal"` with the tag removed. -/
theorem c8_legacy_tag_mapping_witness :
    legacyTask.matrixId = none ∧
    (migrateOne legacyTask).matrixId = some "personal" ∧
    (migrateOne legacyTask).tag = none := by
  refine ⟨by decide, ?_, (c8_legacy_tag_mapping legacyTask rfl).2.1⟩
  have h := (c8_legacy_tag_mapping legacyTask rfl).1
  simpa using h

/-! ### Lemmas about the JS `Map` model used for matrices -/

theorem mapUpsert_pos {m : List (String × Matrix)} {k : String} (v : Matrix)
    (h : k ∈ m.map (·.1)) :
    mapUpsert m k v = m.map (fun p => if p.1 = k then (k, v) else p) := by
  unfold mapUpsert
  rcases List.mem_map.mp h with ⟨p, hp, hpk⟩
  rw [if_pos (List.any_eq_true.mpr ⟨p, hp, decide_eq_true hpk⟩)]

theorem mapUpsert_neg {m : List (String × Matrix)} {k : String} (v : Matrix)
    (h : k ∉ m.map (·.1)) :
    mapUpsert m k v = m ++ [(k, v)] := by
  unfold mapUpsert
  rw [if_neg (fun hc => by
    rcases List.any_eq_true.mp hc with ⟨p, hp, hpk⟩
    exact h (List.mem_map.mpr ⟨p, hp, of_decide_eq_true hpk⟩))]

theorem keys_mapUpsert_mem {m : List (String × Matrix)} {k : String}
    (v : Matrix) (h : k ∈ m.map (·.1)) :
    (mapUpsert m k v).map (·.1) = m.map (·.1) := by
  rw [mapUpsert_pos v h, List.map_map]
  apply List.map_congr_left
  intro p _
  show (if p.1 = k then (k, v) else p).1 = p.1
  by_cases hpk : p.1 = k
  · rw [if_pos hpk]
    exact hpk.symm
  · rw [if_neg hpk]

theorem keys_mapUpsert_not_mem {m : List (String × Matrix)} {k : String}
    (v : Matrix) (h : k ∉ m.map (·.1)) :
    (mapUpsert m k v).map (·.1) = m.map (·.1) ++ [k] := by
  rw [mapUpsert_neg v h, List.map_append]
  rfl

theorem nodup_keys_mapUpsert {m : List (String × Matrix)} {k : String}
    (v : Matrix) (hnd : (m.map (·.1)).Nodup) :
    ((mapUpsert m k v).map (·.1)).Nodup := by
  by_cases h : k ∈ m.map (·.1)
  · rw [keys_mapUpsert_mem v h]
    exact hnd
  · rw [keys_mapUpsert_not_mem v h, List.nodup_append]
    refine ⟨hnd, List.nodup_singleton _, ?_⟩
    intro x hx hx1
    rcases List.mem_singleton.mp hx1 with rfl
    exact h hx

theorem pairsOk_mapUpsert {m : List (String × Matrix)} {k : String}
    {v : Matrix} (hpo : PairsOk m) (hv : v.id = k) :
    PairsOk (mapUpsert m k v) := by
  intro p hp
  by_cases h : k ∈ m.map (·.1)
  · rw [mapUpsert_pos v h] at hp
    rcases List.mem_map.mp hp with ⟨q, hq, rfl⟩
    show (if q.1 = k then (k, v) else q).2.id = (if q.1 = k then (k, v) else q).1
    by_cases hqk : q.1 = k
    · rw [if_pos hqk]
      exact hv
    · rw [if_neg hqk]
      exact hpo q hq
  · rw [mapUpsert_neg v h] at hp
    rcases List.mem_append.mp hp with hp | hp
    · exact hpo p hp
    · rcases List.mem_singleton.mp hp with rfl
      exact hv

theorem find?_map_upsert_self (k : String) (v : Matrix) :
    ∀ m : List (String × Matrix), k ∈ m.map (·.1) →
      (m.map (fun p => if p.1 = k then (k, v) else p)).find?
        (fun p => p.1 = k) = some (k, v) := by
  intro m
  induction m with
  | nil => intro h; simp at h
  | cons p m ih =>
    intro h
    rw [List.map_cons]
    by_cases hpk : p.1 = k
    · rw [if_pos hpk]
      simp [List.find?_cons]
    · rw [if_neg hpk]
      rw [List.find?_cons]
      rw [show (decide (p.1 = k)) = false from decide_eq_false hpk]
      apply ih
      rcases List.mem_map.mp h with ⟨q, hq, hqk⟩
      rcases List.mem_cons.mp hq with rfl | hq2
      · exact absurd hqk hpk
      · exact List.mem_map.mpr ⟨q, hq2, hqk⟩

theorem find?_append_single_self (k : String) (v : Matrix) :
    ∀ m : List (String × Matrix), k ∉ m.map (·.1) →
      (m ++ [(k, v)]).find? (fun p => p.1 = k) = some (k, v) := by
  intro m
  induction m with
  | nil => simp [List.find?_cons]
  | cons p m ih =>
    intro h
    rw [List.cons_append, List.find?_cons]
    have hpk : p.1 ≠ k := fun hc =>
      h (List.mem_map.mpr ⟨p, List.mem_cons_self p m, hc⟩)
    rw [show (decide (p.1 = k)) = false from decide_eq_false hpk]
    exact ih (fun hc => h (List.mem_cons_of_mem _ hc))

theorem jsMapGet_mapUpsert_self {m : List (String × Matrix)} {k : String}
    {v : Matrix} : jsMapGet (mapUpsert m k v) k = some v := by
  by_cases h : k ∈ m.map (·.1)
  · rw [mapUpsert_pos v h]
    unfold jsMapGet
    rw [find?_map_upsert_self k v m h]
    rfl
  · rw [mapUpsert_neg v h]
    unfold jsMapGet
    rw [find?_append_single_self k v m h]
    rfl

theorem find?_map_upsert_ne {k k' : String} (hne : k' ≠ k) (v : Matrix) :
    ∀ m : List (String × Matrix),
      (m.map (fun p => if p.1 = k then (k, v) else p)).find? (fun p => p.1 = k')
        = m.find? (fun p => p.1 = k') := by
  intro m
  induction m with
  | nil => rfl
  | cons p m ih =>
    rw [List.map_cons]
    by_cases hpk : p.1 = k
    · rw [if_pos hpk]
      rw [List.find?_cons, List.find?_cons]
      rw [show (decide (((k, v) : String × Matrix).1 = k')) = false from
        decide_eq_false (fun hc => hne hc.symm)]
      rw [show (decide (p.1 = k')) = false from
        decide_eq_false (fun hc => hne (hc ▸ hpk))]
      exact ih
    · rw [if_neg hpk]
      rw [List.find?_cons, List.find?_cons]
      by_cases hpk' : p.1 = k'
      · rw [show (decide (p.1 = k')) = true from decide_eq_true hpk']
      · rw [show (decide (p.1 = k')) = false from decide_eq_false hpk']
        exact ih

theorem find?_append_single_ne {k k' : String} (hne : k' ≠ k) (v : Matrix) :
    ∀ m : List (String × Matrix),
      (m ++ [(k, v)]).find? (fun p => p.1 = k') = m.find? (fun p => p.1 = k') := by
  intro m
  induction m with
  | nil =>
    rw [List.nil_append, List.find?_cons]
    rw [show (decide (((k, v) : String × Matrix).1 = k')) = false from
      decide_eq_false (fun hc => hne hc.symm)]
  | cons p m ih =>
    rw [List.cons_append, List.find?_cons, List.find?_cons]
    by_cases hpk' : p.1 = k'
    · rw [show (decide (p.1 = k')) = true from decide_eq_true hpk']
    · rw [show (decide (p.1 = k')) = false from decide_eq_false hpk']
      exact ih

theorem jsMapGet_mapUpsert_ne {m : List (String × Matrix)} {k k' : String}
    {v : Matrix} (hne : k' ≠ k) :
    jsMapGet (mapUpsert m k v) k' = jsMapGet m k' := by
  by_cases h : k ∈ m.map (·.1)
  · rw [mapUpsert_pos v h]
    unfold jsMapGet
    rw [find?_map_upsert_ne hne v m]
  · rw [mapUpsert_neg v h]
    unfold jsMapGet
    rw [find?_append_single_ne hne v m]

theorem mem_mapUpsert_of_ne {m : List (String × Matrix)} {k : String}
    {v : Matrix} {p : String × Matrix} (hp : p ∈ m) (hne : p.1 ≠ k) :
    p ∈ mapUpsert m k v := by
  by_cases h : k ∈ m.map (·.1)
  · rw [mapUpsert_pos v h]
    exact List.mem_map.mpr ⟨p, hp, by rw [if_neg hne]⟩
  · rw [mapUpsert_neg v h]
    exact List.mem_append.mpr (Or.inl hp)

theorem mem_of_mem_mapUpsert_ne {m : List (String × Matrix)} {k : String}
    {v : Matrix} {p : String × Matrix} (hp : p ∈ mapUpsert m k v)
    (hne : p.1 ≠ k) : p ∈ m := by
  by_cases h : k ∈ m.map (·.1)
  · rw [mapUpsert_pos v h] at hp
    rcases List.mem_map.mp hp with ⟨q, hq, rfl⟩
    by_cases hqk : q.1 = k
    · rw [if_pos hqk] at hne ⊢
      exact absurd rfl hne
    · rw [if_neg hqk]
      rw [if_neg hqk] at hne
      exact hq
  · rw [mapUpsert_neg v h] at hp
    rcases List.mem_append.mp hp with hp | hp
    · exact hp
    · rcases List.mem_singleton.mp hp with rfl
      exact absurd rfl hne

theorem mapUpsert_of_mem_nodup {m : List (String × Matrix)} {k : String}
    {v : Matrix} (hnd : (m.map (·.1)).Nodup) (hmem : (k, v) ∈ m) :
    mapUpsert m k v = m := by
  have hk : k ∈ m.map (·.1) := List.mem_map.mpr ⟨(k, v), hmem, rfl⟩
  rw [mapUpsert_pos v hk]
  have : ∀ p ∈ m, (if p.1 = k then (k, v) else p) = p := by
    intro p hp
    by_cases hpk : p.1 = k
    · rw [if_pos hpk]
      exact (List.inj_on_of_nodup_map hnd hp hmem (by rw [hpk])).symm
    · rw [if_neg hpk]
  rw [List.map_congr_left this]
  exact List.map_id' m

theorem mapFromList_eq_of_nodup :
    ∀ (l : List Matrix) (acc : List (String × Matrix)),
      (acc.map (·.1) ++ l.map (·.id)).Nodup →
      l.foldl (fun m x => mapUpsert m x.id x) acc
        = acc ++ l.map (fun x => (x.id, x)) := by
  intro l
  induction l with
  | nil =>
    intro acc _
    simp
  | cons x l ih =>
    intro acc h
    rw [List.foldl_cons]
    have hx : x.id ∉ acc.map (·.1) := by
      rw [List.nodup_append] at h
      intro hc
      exact h.2.2 hc (List.mem_map_of_mem (·.id) (List.mem_cons_self x l))
    rw [mapUpsert_neg x hx]
    rw [ih (acc ++ [(x.id, x)]) (by
      rw [List.map_append]
      rw [List.append_assoc]
      simpa using h)]
    simp

theorem mapFromList_eq {l : List Matrix} (h : (l.map (·.id)).Nodup) :
    mapFromList l = l.map (fun x => (x.id, x)) := by
  have h0 := mapFromList_eq_of_nodup l [] (by simpa using h)
  simpa [mapFromList] using h0

theorem nodup_keys_mapFromList (l : List Matrix) :
    ((mapFromList l).map (·.1)).Nodup := by
  unfold mapFromList
  suffices hgen : ∀ acc : List (String × Matrix), (acc.map (·.1)).Nodup →
      ((l.foldl (fun m x => mapUpsert m x.id x) acc).map (·.1)).Nodup by
    exact hgen [] (List.nodup_nil)
  induction l with
  | nil => intro acc h; exact h
  | cons x l ih =>
    intro acc h
    rw [List.foldl_cons]
    exact ih _ (nodup_keys_mapUpsert x h)

theorem pairsOk_mapFromList (l : List Matrix) : PairsOk (mapFromList l) := by
  unfold mapFromList
  suffices hgen : ∀ acc : List (String × Matrix), PairsOk acc →
      PairsOk (l.foldl (fun m x => mapUpsert m x.id x) acc) by
    exact hgen [] (fun p hp => absurd hp (List.not_mem_nil p))
  induction l with
  | nil => intro acc h; exact h
  | cons x l ih =>
    intro acc h
    rw [List.foldl_cons]
    exact ih _ (pairsOk_mapUpsert h rfl)

theorem pair_mem_of_get {m : List (String × Matrix)} {k : String} {v : Matrix}
    (hget : jsMapGet m k = some v) : (k, v) ∈ m := by
  unfold jsMapGet at hget
  cases hfind : m.find? (fun p => p.1 = k) with
  | none => rw [hfind] at hget; cases hget
  | some q =>
    rw [hfind] at hget
    have hq0 := List.find?_some hfind
    have hq1 : q.1 = k := of_decide_eq_true hq0
    have hq2 : q.2 = v := Option.some_injective _ hget
    have : q = (k, v) := by
      cases q
      simp at hq1 hq2
      rw [hq1, hq2]
    exact this ▸ List.mem_of_find?_eq_some hfind

theorem values_mem_of_get {m : List (String × Matrix)} {k : String}
    {v : Matrix} (hget : jsMapGet m k = some v) : v ∈ m.map (·.2) :=
  List.mem_map.mpr ⟨(k, v), pair_mem_of_get hget, rfl⟩

theorem get_id_of_pairsOk {m : List (String × Matrix)} {k : String}
    {ex : Matrix} (hpo : PairsOk m) (hget : jsMapGet m k = some ex) :
    ex.id = k := by
  have hmem := pair_mem_of_get hget
  exact hpo (k, ex) hmem

theorem jsMapGet_ensureStep_self {m : List (String × Matrix)} {dm : Matrix}
    (hpo : PairsOk m) (hdm : dm.pinned = true) :
    jsMapGet (ensureStep m dm) dm.id = some ⟨dm.id, dm.name, true⟩ := by
  unfold ensureStep
  cases hget : jsMapGet m dm.id with
  | none =>
    rw [jsMapGet_mapUpsert_self]
    cases dm with
    | mk i n p =>
      simp only [] at hdm ⊢
      rw [hdm]
  | some ex =>
    rw [jsMapGet_mapUpsert_self]
    have hexid : ex.id = dm.id := get_id_of_pairsOk hpo hget
    cases ex with
    | mk i n p =>
      simp only [] at hexid
      rw [show ({ Matrix.mk i n p with name := dm.name, pinned := true } : Matrix)
        = ⟨i, dm.name, true⟩ from rfl, hexid]

theorem jsMapGet_ensureStep_ne {m : List (String × Matrix)} (dm : Matrix)
    {k : String} (hne : k ≠ dm.id) :
    jsMapGet (ensureStep m dm) k = jsMapGet m k := by
  unfold ensureStep
  cases jsMapGet m dm.id with
  | none => rw [jsMapGet_mapUpsert_ne hne]
  | some ex => rw [jsMapGet_mapUpsert_ne hne]

theorem ensureStep_pairsOk {m : List (String × Matrix)} (dm : Matrix)
    (hpo : PairsOk m) : PairsOk (ensureStep m dm) := by
  unfold ensureStep
  cases hget : jsMapGet m dm.id with
  | none => exact pairsOk_mapUpsert hpo rfl
  | some ex =>
    apply pairsOk_mapUpsert hpo
    show ex.id = dm.id
    exact get_id_of_pairsOk hpo hget

theorem ensureStep_keys_nodup {m : List (String × Matrix)} (dm : Matrix)
    (hnd : (m.map (·.1)).Nodup) : ((ensureStep m dm).map (·.1)).Nodup := by
  unfold ensureStep
  cases jsMapGet m dm.id with
  | none => exact nodup_keys_mapUpsert _ hnd
  | some ex => exact nodup_keys_mapUpsert _ hnd

theorem ensureStep_mem_ne {m : List (String × Matrix)} {dm : Matrix}
    {p : String × Matrix} (hp : p ∈ m) (hne : p.1 ≠ dm.id) :
    p ∈ ensureStep m dm := by
  unfold ensureStep
  cases jsMapGet m dm.id with
  | none => exact mem_mapUpsert_of_ne hp hne
  | some ex => exact mem_mapUpsert_of_ne hp hne

theorem mem_of_mem_ensureStep_ne {m : List (String × Matrix)} {dm : Matrix}
    {p : String × Matrix} (hp : p ∈ ensureStep m dm) (hne : p.1 ≠ dm.id) :
    p ∈ m := by
  unfold ensureStep at hp
  cases hget : jsMapGet m dm.id with
  | none =>
    rw [hget] at hp
    exact mem_of_mem_mapUpsert_ne hp hne
  | some ex =>
    rw [hget] at hp
    exact mem_of_mem_mapUpsert_ne hp hne

theorem ensureStep_fix {m : List (String × Matrix)} {dm : Matrix}
    (hnd : (m.map (·.1)).Nodup)
    (hget : jsMapGet m dm.id = some ⟨dm.id, dm.name, true⟩) :
    ensureStep m dm = m := by
  unfold ensureStep
  rw [hget]
  exact mapUpsert_of_mem_nodup hnd (pair_mem_of_get hget)

theorem ensure_eq_steps (l : List Matrix) :
    ensureDefaultPinnedMatrices l
      = (ensureStep (ensureStep (ensureStep (mapFromList l)
          ⟨"work", "Work", true⟩) ⟨"personal", "Personal", true⟩)
          ⟨"goals", "Goals", true⟩).map (·.2) := rfl

theorem ensureChain_facts (l : List Matrix) :
    PairsOk (ensureStep (ensureStep (ensureStep (mapFromList l)
        ⟨"work", "Work", true⟩) ⟨"personal", "Personal", true⟩)
        ⟨"goals", "Goals", true⟩) ∧
    ((ensureStep (ensureStep (ensureStep (mapFromList l)
        ⟨"work", "Work", true⟩) ⟨"personal", "Personal", true⟩)
        ⟨"goals", "Goals", true⟩).map (·.1)).Nodup ∧
    jsMapGet (ensureStep (ensureStep (ensureStep (mapFromList l)
        ⟨"work", "Work", true⟩) ⟨"personal", "Personal", true⟩)
        ⟨"goals", "Goals", true⟩) "work" = some ⟨"work", "Work", true⟩ ∧
    jsMapGet (ensureStep (ensureStep (ensureStep (mapFromList l)
        ⟨"work", "Work", true⟩) ⟨"personal", "Personal", true⟩)
        ⟨"goals", "Goals", true⟩) "personal" = some ⟨"personal", "Personal", true⟩ ∧
    jsMapGet (ensureStep (ensureStep (ensureStep (mapFromList l)
        ⟨"work", "Work", true⟩) ⟨"personal", "Personal", true⟩)
        ⟨"goals", "Goals", true⟩) "goals" = some ⟨"goals", "Goals", true⟩ := by
  have hpo0 := pairsOk_mapFromList l
  have hnd0 := nodup_keys_mapFromList l
  have hpo1 : PairsOk (ensureStep (mapFromList l) ⟨"work", "Work", true⟩) :=
    ensureStep_pairsOk _ hpo0
  have hpo2 : PairsOk (ensureStep (ensureStep (mapFromList l)
      ⟨"work", "Work", true⟩) ⟨"personal", "Personal", true⟩) :=
    ensureStep_pairsOk _ hpo1
  have hpo3 := ensureStep_pairsOk ⟨"goals", "Goals", true⟩ hpo2
  have hnd1 := ensureStep_keys_nodup ⟨"work", "Work", true⟩ hnd0
  have hnd2 := ensureStep_keys_nodup ⟨"personal", "Personal", true⟩ hnd1
  have hnd3 := ensureStep_keys_nodup ⟨"goals", "Goals", true⟩ hnd2
  have hgw1 : jsMapGet (ensureStep (mapFromList l) ⟨"work", "Work", true⟩) "work"
      = some ⟨"work", "Work", true⟩ := jsMapGet_ensureStep_self hpo0 rfl
  have hgw2 := (jsMapGet_ensureStep_ne
    ⟨"personal", "Personal", true⟩ (k := "work") (by decide)).trans hgw1
  have hgw3 := (jsMapGet_ensureStep_ne
    ⟨"goals", "Goals", true⟩ (k := "work") (by decide)).trans hgw2
  have hgp2 : jsMapGet (ensureStep (ensureStep (mapFromList l)
      ⟨"work", "Work", true⟩) ⟨"personal", "Personal", true⟩) "personal"
      = some ⟨"personal", "Personal", true⟩ := jsMapGet_ensureStep_self hpo1 rfl
  have hgp3 := (jsMapGet_ensureStep_ne
    ⟨"goals", "Goals", true⟩ (k := "personal") (by decide)).trans hgp2
  have hgg3 : jsMapGet (ensureStep (ensureStep (ensureStep (mapFromList l)
      ⟨"work", "Work", true⟩) ⟨"personal", "Personal", true⟩)
      ⟨"goals", "Goals", true⟩) "goals"
      = some ⟨"goals", "Goals", true⟩ := jsMapGet_ensureStep_self hpo2 rfl
  exact ⟨hpo3, hnd3, hgw3, hgp3, hgg3⟩

/-- C7 (counterexample): with two stored records sharing the id `"x"`, the
`Map`-based normalization keeps only the last record per id, so the first
record is not preserved — the claim fails for arbitrary stored lists. -/
theorem c7_default_matrix_counterexample :
    (⟨"x", "A", false⟩ : Matrix) ∈ dupMatrices ∧
    "x" ∉ DEFAULT_MATRICES.map (·.id) ∧
    (⟨"x", "A", false⟩ : Matrix) ∉ ensureDefaultPinnedMatrices dupMatrices := by
  decide

theorem jsMapGet_of_mem_nodup {m : List (String × Matrix)}
    {p : String × Matrix} (hnd : (m.map (·.1)).Nodup) (hp : p ∈ m) :
    jsMapGet m p.1 = some p.2 := by
  unfold jsMapGet
  induction m with
  | nil => cases hp
  | cons q m ih =>
    rw [List.map_cons] at hnd
    rcases List.mem_cons.mp hp with rfl | hp2
    · rw [List.find?_cons,
        show (decide (p.1 = p.1)) = true from decide_eq_true rfl]
      rfl
    · have hq1 : ¬(q.1 = p.1) := by
        intro hc
        exact (List.nodup_cons.mp hnd).1
          (hc ▸ List.mem_map_of_mem (·.1) hp2)
      rw [List.find?_cons,
        show (decide (q.1 = p.1)) = false from decide_eq_false hq1]
      exact ih (List.nodup_cons.mp hnd).2 hp2

/-- C7 (amended): for a stored or imported matrix list whose ids are pairwise
distinct (the data model's id uniqueness; with duplicate ids only the last
record per id is kept), normalization yields a list whose ids are pairwise
distinct and that contains, for each default id, the entry with the default
name and `pinned = true` (inserted if absent, overwritten if present) and no
other record with that id — a stale stored default cannot survive — while the
non-default matrices of the input are preserved unchanged, including unpinned
ones, and no other record appears. -/
theorem c7_default_matrix_normalization (l : List Matrix)
    (hnd : (l.map (·.id)).Nodup) :
    (∀ dm ∈ DEFAULT_MATRICES,
      (⟨dm.id, dm.name, true⟩ : Matrix) ∈ ensureDefaultPinnedMatrices l) ∧
    (∀ mx ∈ l, mx.id ∉ DEFAULT_MATRICES.map (·.id) →
      mx ∈ ensureDefaultPinnedMatrices l) ∧
    (∀ mx ∈ ensureDefaultPinnedMatrices l,
      mx.id ∉ DEFAULT_MATRICES.map (·.id) → mx ∈ l) ∧
    (∀ mx ∈ ensureDefaultPinnedMatrices l, ∀ dm ∈ DEFAULT_MATRICES,
      mx.id = dm.id → mx = ⟨dm.id, dm.name, true⟩) ∧
    ((ensureDefaultPinnedMatrices l).map (·.id)).Nodup := by
  obtain ⟨hpo3, hnd3, hgw, hgp, hgg⟩ := ensureChain_facts l
  refine ⟨?_, ?_, ?_, ?_, ?_⟩
  · intro dm hdm
    have hcases : dm = ⟨"work", "Work", true⟩ ∨ dm = ⟨"personal", "Personal", true⟩
        ∨ dm = ⟨"goals", "Goals", true⟩ := by
      simpa [DEFAULT_MATRICES] using hdm
    rw [ensure_eq_steps l]
    rcases hcases with rfl | rfl | rfl
    · exact values_mem_of_get hgw
    · exact values_mem_of_get hgp
    · exact values_mem_of_get hgg
  · intro mx hmx hni
    have hne : mx.id ≠ "work" ∧ mx.id ≠ "personal" ∧ mx.id ≠ "goals" := by
      refine ⟨?_, ?_, ?_⟩ <;> intro hc <;> exact hni (by rw [hc]; decide)
    have hmem0 : (mx.id, mx) ∈ mapFromList l := by
      rw [mapFromList_eq hnd]
      exact List.mem_map.mpr ⟨mx, hmx, rfl⟩
    have h1 := @ensureStep_mem_ne _ ⟨"work", "Work", true⟩ _ hmem0 hne.1
    have h2 := @ensureStep_mem_ne _ ⟨"personal", "Personal", true⟩ _ h1 hne.2.1
    have h3 := @ensureStep_mem_ne _ ⟨"goals", "Goals", true⟩ _ h2 hne.2.2
    rw [ensure_eq_steps l]
    exact List.mem_map.mpr ⟨(mx.id, mx), h3, rfl⟩
  · intro mx hmx hni
    have hne : mx.id ≠ "work" ∧ mx.id ≠ "personal" ∧ mx.id ≠ "goals" := by
      refine ⟨?_, ?_, ?_⟩ <;> intro hc <;> exact hni (by rw [hc]; decide)
    rw [ensure_eq_steps l] at hmx
    rcases List.mem_map.mp hmx with ⟨q, hq, rfl⟩
    have hq1 : q.1 = q.2.id := (hpo3 q hq).symm
    have h2 := @mem_of_mem_ensureStep_ne _ ⟨"goals", "Goals", true⟩ _ hq
      (by rw [hq1]; exact hne.2.2)
    have h1 := @mem_of_mem_ensureStep_ne _ ⟨"personal", "Personal", true⟩ _ h2
      (by rw [hq1]; exact hne.2.1)
    have h0 := @mem_of_mem_ensureStep_ne _ ⟨"work", "Work", true⟩ _ h1
      (by rw [hq1]; exact hne.1)
    rw [mapFromList_eq hnd] at h0
    rcases List.mem_map.mp h0 with ⟨x, hx, hxe⟩
    have hqx : q.2 = x := (congrArg Prod.snd hxe).symm
    rw [hqx]
    exact hx
  · intro mx hmx dm hdm hid
    have hcases : dm = ⟨"work", "Work", true⟩ ∨ dm = ⟨"personal", "Personal", true⟩
        ∨ dm = ⟨"goals", "Goals", true⟩ := by
      simpa [DEFAULT_MATRICES] using hdm
    rw [ensure_eq_steps l] at hmx
    rcases List.mem_map.mp hmx with ⟨q, hq, rfl⟩
    have hq1 : q.1 = q.2.id := (hpo3 q hq).symm
    have hgetq := jsMapGet_of_mem_nodup hnd3 hq
    rcases hcases with rfl | rfl | rfl
    · rw [show q.1 = "work" from hq1.trans hid] at hgetq
      exact Option.some_injective _ (hgetq.symm.trans hgw)
    · rw [show q.1 = "personal" from hq1.trans hid] at hgetq
      exact Option.some_injective _ (hgetq.symm.trans hgp)
    · rw [show q.1 = "goals" from hq1.trans hid] at hgetq
      exact Option.some_injective _ (hgetq.symm.trans hgg)
  · have hout : (ensureDefaultPinnedMatrices l).map (·.id)
        = (ensureStep (ensureStep (ensureStep (mapFromList l)
            ⟨"work", "Work", true⟩) ⟨"personal", "Personal", true⟩)
            ⟨"goals", "Goals", true⟩).map (·.1) := by
      rw [ensure_eq_steps l, List.map_map]
      exact List.map_congr_left (fun q hq => hpo3 q hq)
    rw [hout]
    exact hnd3

/-- C7 (witness): the amended theorem at a two-element list holding a stored
`work` (with `pinned` false and a changed name `"W"`) and an extra unpinned
matrix; in the output the stale `⟨"work", "W", false⟩` record is gone. -/
theorem c7_default_matrix_normalization_witness :
    (([⟨"work", "W", false⟩, ⟨"extra", "E", false⟩] : List Matrix).map (·.id)).Nodup ∧
    (⟨"work", "W", false⟩ : Matrix)
      ∉ ensureDefaultPinnedMatrices [⟨"work", "W", false⟩, ⟨"extra", "E", false⟩] ∧
    ((∀ dm ∈ DEFAULT_MATRICES, (⟨dm.id, dm.name, true⟩ : Matrix)
        ∈ ensureDefaultPinnedMatrices [⟨"work", "W", false⟩, ⟨"extra", "E", false⟩]) ∧
      (∀ mx ∈ ([⟨"work", "W", false⟩, ⟨"extra", "E", false⟩] : List Matrix),
        mx.id ∉ DEFAULT_MATRICES.map (·.id) →
        mx ∈ ensureDefaultPinnedMatrices [⟨"work", "W", false⟩, ⟨"extra", "E", false⟩]) ∧
      (∀ mx ∈ ensureDefaultPinnedMatrices [⟨"work", "W", false⟩, ⟨"extra", "E", false⟩],
        mx.id ∉ DEFAULT_MATRICES.map (·.id) →
        mx ∈ ([⟨"work", "W", false⟩, ⟨"extra", "E", false⟩] : List Matrix)) ∧
      (∀ mx ∈ ensureDefaultPinnedMatrices [⟨"work", "W", false⟩, ⟨"extra", "E", false⟩],
        ∀ dm ∈ DEFAULT_MATRICES, mx.id = dm.id → mx = ⟨dm.id, dm.name, true⟩) ∧
      ((ensureDefaultPinnedMatrices
        [⟨"work", "W", false⟩, ⟨"extra", "E", false⟩]).map (·.id)).Nodup) :=
  ⟨by decide, by decide,
    c7_default_matrix_normalization [⟨"work", "W", false⟩, ⟨"extra", "E", false⟩]
      (by decide)⟩

theorem ensure_idem (l : List Matrix) :
    ensureDefaultPinnedMatrices (ensureDefaultPinnedMatrices l)
      = ensureDefaultPinnedMatrices l := by
  obtain ⟨hpo3, hnd3, hgw, hgp, hgg⟩ := ensureChain_facts l
  have hout_ids : (ensureDefaultPinnedMatrices l).map (·.id)
      = (ensureStep (ensureStep (ensureStep (mapFromList l)
          ⟨"work", "Work", true⟩) ⟨"personal", "Personal", true⟩)
          ⟨"goals", "Goals", true⟩).map (·.1) := by
    rw [ensure_eq_steps l, List.map_map]
    exact List.map_congr_left (fun p hp => hpo3 p hp)
  have hout_nd : ((ensureDefaultPinnedMatrices l).map (·.id)).Nodup := by
    rw [hout_ids]
    exact hnd3
  have hmfl : mapFromList (ensureDefaultPinnedMatrices l)
      = ensureStep (ensureStep (ensureStep (mapFromList l)
          ⟨"work", "Work", true⟩) ⟨"personal", "Personal", true⟩)
          ⟨"goals", "Goals", true⟩ := by
    rw [mapFromList_eq hout_nd, ensure_eq_steps l, List.map_map]
    have e : ∀ p ∈ ensureStep (ensureStep (ensureStep (mapFromList l)
        ⟨"work", "Work", true⟩) ⟨"personal", "Personal", true⟩)
        ⟨"goals", "Goals", true⟩,
        ((fun x => (x.id, x)) ∘ (·.2)) p = p := by
      intro p hp
      show ((p.2).id, p.2) = p
      rw [hpo3 p hp]
    rw [List.map_congr_left e, List.map_id']
  rw [show ensureDefaultPinnedMatrices (ensureDefaultPinnedMatrices l)
      = (ensureStep (ensureStep (ensureStep
          (mapFromList (ensureDefaultPinnedMatrices l))
          ⟨"work", "Work", true⟩) ⟨"personal", "Personal", true⟩)
          ⟨"goals", "Goals", true⟩).map (·.2) from rfl]
  rw [hmfl]
  rw [ensureStep_fix hnd3 hgw, ensureStep_fix hnd3 hgp, ensureStep_fix hnd3 hgg]
  rw [ensure_eq_steps l]

theorem legacyMatrixIdOfTag_ne_empty (tag : Option String) :
    legacyMatrixIdOfTag tag ≠ "" := by
  unfold legacyMatrixIdOfTag
  by_cases h1 : tag = some "Personal"
  · rw [if_pos h1]
    decide
  · rw [if_neg h1]
    by_cases h2 : tag = some "Goals"
    · rw [if_pos h2]
      decide
    · rw [if_neg h2]
      decide

theorem migrateOne_truthy (t : Task) :
    (migrateOne t).matrixId ≠ none ∧ (migrateOne t).matrixId ≠ some "" := by
  unfold migrateOne
  by_cases h : t.matrixId ≠ none ∧ t.matrixId ≠ some ""
  · rw [if_pos h]
    exact h
  · rw [if_neg h]
    constructor
    · show some (legacyMatrixIdOfTag t.tag) ≠ none
      intro hc
      cases hc
    · show some (legacyMatrixIdOfTag t.tag) ≠ some ""
      intro hc
      exact legacyMatrixIdOfTag_ne_empty t.tag (Option.some_injective _ hc)

theorem migrateOne_of_truthy {t : Task}
    (h : t.matrixId ≠ none ∧ t.matrixId ≠ some "") : migrateOne t = t := by
  unfold migrateOne
  rw [if_pos h]

theorem migrateOne_idem (t : Task) : migrateOne (migrateOne t) = migrateOne t :=
  migrateOne_of_truthy (migrateOne_truthy t)

theorem backfillAux_map_migrateOne :
    ∀ (l : List Task) (cs : Option String × Urgency → Nat),
      (∀ t ∈ l, t.matrixId ≠ none ∧ t.matrixId ≠ some "") →
      (backfillAux cs l).map migrateOne = backfillAux cs l := by
  intro l
  induction l with
  | nil => intro cs _; rfl
  | cons t l ih =>
    intro cs h
    show ({ t with order := some ((cs (t.matrixId, t.urgency) : Nat) : Int) }
        :: backfillAux _ l).map migrateOne = _
    rw [List.map_cons]
    have ht := h t (List.mem_cons_self t l)
    congr 1
    · exact migrateOne_of_truthy (by exact ht)
    · exact ih _ (fun x hx => h x (List.mem_cons_of_mem _ hx))

theorem backfillAux_any (cs : Option String × Urgency → Nat) (l : List Task) :
    (backfillAux cs l).any (fun t => t.order.isSome) = !l.isEmpty := by
  cases l with
  | nil => rfl
  | cons t l =>
    show (({ t with order := some ((cs (t.matrixId, t.urgency) : Nat) : Int) }
        : Task) :: backfillAux _ l).any (fun t => t.order.isSome) = true
    rw [List.any_cons]
    rfl

theorem migrateTasks_idem (ts : List Task) :
    migrateTasks (migrateTasks ts) = migrateTasks ts := by
  have hm1t : ∀ t ∈ ts.map migrateOne,
      t.matrixId ≠ none ∧ t.matrixId ≠ some "" := by
    intro t ht
    rcases List.mem_map.mp ht with ⟨s, _, rfl⟩
    exact migrateOne_truthy s
  have hm1m : (ts.map migrateOne).map migrateOne = ts.map migrateOne := by
    rw [List.map_congr_left (g := fun t => t)
      (fun t ht => migrateOne_of_truthy (hm1t t ht))]
    exact List.map_id' _
  have e1 : migrateTasks ts
      = if (ts.map migrateOne).any (fun t => t.order.isSome) then ts.map migrateOne
        else backfillAux (fun _ => 0) (ts.map migrateOne) := rfl
  rw [e1]
  cases hany : (ts.map migrateOne).any (fun t => t.order.isSome) with
  | true =>
    rw [if_pos rfl]
    have e2 : migrateTasks (ts.map migrateOne)
        = if ((ts.map migrateOne).map migrateOne).any (fun t => t.order.isSome)
          then (ts.map migrateOne).map migrateOne
          else backfillAux (fun _ => 0) ((ts.map migrateOne).map migrateOne) := rfl
    rw [e2, hm1m, hany]
    rw [if_pos rfl]
  | false =>
    rw [if_neg (by exact Bool.false_ne_true)]
    have e2 : migrateTasks (backfillAux (fun _ => 0) (ts.map migrateOne))
        = if ((backfillAux (fun _ => 0) (ts.map migrateOne)).map migrateOne).any
            (fun t => t.order.isSome)
          then (backfillAux (fun _ => 0) (ts.map migrateOne)).map migrateOne
          else backfillAux (fun _ => 0)
            ((backfillAux (fun _ => 0) (ts.map migrateOne)).map migrateOne) := rfl
    rw [e2, backfillAux_map_migrateOne _ _ hm1t, backfillAux_any]
    cases hm1 : ts.map migrateOne with
    | nil =>
      rw [if_neg (by decide)]
      rfl
    | cons t0 l0 =>
      rw [if_pos (show (!(t0 :: l0 : List Task).isEmpty) = true from rfl)]

/-- C6: schema migration is idempotent: applying the task migration
(legacy-tag mapping plus order backfill) or the matrix normalization a second
time to its own output returns that output unchanged. -/
theorem c6_migration_idempotent :
    (∀ ts, migrateTasks (migrateTasks ts) = migrateTasks ts) ∧
    (∀ l, ensureDefaultPinnedMatrices (ensureDefaultPinnedMatrices l)
      = ensureDefaultPinnedMatrices l) :=
  ⟨migrateTasks_idem, ensure_idem⟩

/-! ### Lemmas about view composition (`selectedMatrixIds`) -/

theorem jsSetOfList_foldl_mem (x : String) :
    ∀ (l acc : List String),
      (x ∈ l.foldl (fun acc y => if y ∈ acc then acc else acc ++ [y]) acc
        ↔ x ∈ acc ∨ x ∈ l) := by
  intro l
  induction l with
  | nil =>
    intro acc
    simp
  | cons a l ih =>
    intro acc
    rw [List.foldl_cons]
    rw [ih]
    by_cases ha : a ∈ acc
    · rw [if_pos ha]
      constructor
      · rintro (h | h)
        · exact Or.inl h
        · exact Or.inr (List.mem_cons_of_mem a h)
      · rintro (h | h)
        · exact Or.inl h
        · rcases List.mem_cons.mp h with rfl | h
          · exact Or.inl ha
          · exact Or.inr h
    · rw [if_neg ha]
      constructor
      · rintro (h | h)
        · rcases List.mem_append.mp h with h | h
          · exact Or.inl h
          · rcases List.mem_singleton.mp h with rfl
            exact Or.inr (List.mem_cons_self _ _)
        · exact Or.inr (List.mem_cons_of_mem a h)
      · rintro (h | h)
        · exact Or.inl (List.mem_append.mpr (Or.inl h))
        · rcases List.mem_cons.mp h with rfl | h
          · exact Or.inl (List.mem_append.mpr (Or.inr (List.mem_singleton.mpr rfl)))
          · exact Or.inr h

theorem mem_jsSetOfList {x : String} {l : List String} :
    x ∈ jsSetOfList l ↔ x ∈ l := by
  unfold jsSetOfList
  rw [jsSetOfList_foldl_mem]
  simp

theorem jsSetOfList_nodup (l : List String) : (jsSetOfList l).Nodup := by
  unfold jsSetOfList
  suffices hgen : ∀ (l acc : List String), acc.Nodup →
      (l.foldl (fun acc y => if y ∈ acc then acc else acc ++ [y]) acc).Nodup by
    exact hgen l [] List.nodup_nil
  intro l
  induction l with
  | nil => intro acc h; exact h
  | cons a l ih =>
    intro acc h
    rw [List.foldl_cons]
    by_cases ha : a ∈ acc
    · rw [if_pos ha]
      exact ih acc h
    · rw [if_neg ha]
      apply ih
      rw [List.nodup_append]
      refine ⟨h, List.nodup_singleton _, ?_⟩
      intro x hx hx1
      rcases List.mem_singleton.mp hx1 with rfl
      exact ha hx

theorem selPush_foldl (vl : List String) :
    ∀ (as acc : List String), as.Nodup →
      as.foldl (fun acc id => if id ∈ vl ∧ id ∉ acc then acc ++ [id] else acc) acc
        = acc ++ as.filter (fun id => id ∈ vl ∧ id ∉ acc) := by
  intro as
  induction as with
  | nil =>
    intro acc _
    simp
  | cons a as ih =>
    intro acc hnd
    rw [List.foldl_cons, List.filter_cons]
    have hna : a ∉ as := (List.nodup_cons.mp hnd).1
    by_cases hc : a ∈ vl ∧ a ∉ acc
    · rw [if_pos hc]
      rw [show (decide (a ∈ vl ∧ a ∉ acc)) = true from decide_eq_true hc]
      rw [ih (acc ++ [a]) (List.nodup_cons.mp hnd).2]
      rw [if_pos rfl, List.append_assoc, List.singleton_append]
      congr 2
      apply List.filter_congr
      intro x hx
      have hxa : x ≠ a := fun hxe => hna (hxe ▸ hx)
      apply decide_eq_decide.mpr
      constructor
      · rintro ⟨h1, h2⟩
        exact ⟨h1, fun hc2 => h2 (List.mem_append.mpr (Or.inl hc2))⟩
      · rintro ⟨h1, h2⟩
        refine ⟨h1, fun hc2 => ?_⟩
        rcases List.mem_append.mp hc2 with hc2 | hc2
        · exact h2 hc2
        · exact hxa (List.mem_singleton.mp hc2)
    · rw [if_neg hc]
      rw [show (decide (a ∈ vl ∧ a ∉ acc)) = false from decide_eq_false hc]
      rw [if_neg (by exact Bool.false_ne_true)]
      exact ih acc (List.nodup_cons.mp hnd).2

theorem selectedMatrixIds_eq_spec (ms : List Matrix) (aps : List String)
    (f : String) (vo : List String) :
    selectedMatrixIds ms aps f vo = selectedMatrixIdsSpec ms aps f vo := by
  show List.foldl
      (fun acc id => if id ∈ List.map (fun x => x.id) ms ∧ id ∉ acc
        then acc ++ [id] else acc)
      (List.filter (fun x =>
          decide (x ∈ jsSetOfList (aps ++ if f ≠ "none" then [f] else [])))
        (List.filter (fun x => decide (x ∈ List.map (fun x => x.id) ms)) vo))
      (jsSetOfList (aps ++ if f ≠ "none" then [f] else []))
    = List.filter (fun id =>
        decide (id ∈ List.map (fun x => x.id) ms ∧
          (id ∈ aps ∨ f ≠ "none" ∧ id = f))) vo
      ++ List.filter (fun id =>
          decide (id ∈ List.map (fun x => x.id) ms ∧
            id ∉ List.filter (fun id =>
              decide (id ∈ List.map (fun x => x.id) ms ∧
                (id ∈ aps ∨ f ≠ "none" ∧ id = f))) vo))
        (jsSetOfList (aps ++ if f ≠ "none" then [f] else []))
  rw [List.filter_filter]
  have hfeq : ∀ x ∈ vo,
      (decide (x ∈ jsSetOfList (aps ++ if f ≠ "none" then [f] else []))
        && decide (x ∈ ms.map (·.id)))
      = decide (x ∈ ms.map (·.id) ∧
          (x ∈ aps ∨ f ≠ "none" ∧ x = f)) := by
    intro x _
    rw [Bool.eq_iff_iff]
    simp only [Bool.and_eq_true, decide_eq_true_eq]
    constructor
    · rintro ⟨h2, h1⟩
      refine ⟨h1, ?_⟩
      rw [mem_jsSetOfList] at h2
      rcases List.mem_append.mp h2 with h2 | h2
      · exact Or.inl h2
      · by_cases hf : f = "none"
        · rw [if_neg (fun hc => hc hf)] at h2
          cases h2
        · rw [if_pos hf] at h2
          exact Or.inr ⟨hf, List.mem_singleton.mp h2⟩
    · rintro ⟨h1, h2⟩
      refine ⟨?_, h1⟩
      rw [mem_jsSetOfList]
      rcases h2 with h2 | ⟨hf, rfl⟩
      · exact List.mem_append.mpr (Or.inl h2)
      · refine List.mem_append.mpr (Or.inr ?_)
        rw [if_pos hf]
        exact List.mem_singleton.mpr rfl
  rw [List.filter_congr hfeq]
  rw [selPush_foldl (ms.map (·.id)) _ _
    (jsSetOfList_nodup (aps ++ if f ≠ "none" then [f] else []))]

theorem selectedMatrixIds_nodup (ms : List Matrix) (aps : List String)
    (f : String) (vo : List String) (h : vo.Nodup) :
    (selectedMatrixIds ms aps f vo).Nodup := by
  rw [selectedMatrixIds_eq_spec]
  show (List.filter (fun id =>
      decide (id ∈ List.map (fun x => x.id) ms ∧
        (id ∈ aps ∨ f ≠ "none" ∧ id = f))) vo
    ++ List.filter (fun id =>
        decide (id ∈ List.map (fun x => x.id) ms ∧
          id ∉ List.filter (fun id =>
            decide (id ∈ List.map (fun x => x.id) ms ∧
              (id ∈ aps ∨ f ≠ "none" ∧ id = f))) vo))
      (jsSetOfList (aps ++ if f ≠ "none" then [f] else []))).Nodup
  rw [List.nodup_append]
  refine ⟨(List.filter_sublist vo).nodup h,
    (List.filter_sublist _).nodup (jsSetOfList_nodup _), ?_⟩
  intro x hx hx2
  have := (List.mem_filter.mp hx2).2
  rcases of_decide_eq_true this with ⟨-, hnotin⟩
  exact hnotin hx

/-- C5 (counterexample): with `viewOrderIds = ["a","a"]` the derived
`selectedMatrixIds` is `["a","a"]`, which is not de-duplicated, so the claim
does not hold for every value of the four inputs. -/
theorem c5_selected_matrix_ids_counterexample :
    selectedMatrixIds [⟨"a", "A", true⟩] ["a"] "none" ["a", "a"] = ["a", "a"] ∧
    ¬ (selectedMatrixIds [⟨"a", "A", true⟩] ["a"] "none" ["a", "a"]).Nodup := by
  decide

/-- C5 (amended): for every value of the inputs, `selectedMatrixIds` equals
the described sequence — `viewOrderIds` filtered to ids that exist in the
matrix list and are active (pinned-active, or equal to the focus id when the
focus is not `"none"`), followed by every remaining active existing id not
already present, in deterministic insertion order — and it is de-duplicated
whenever `viewOrderIds` itself has no duplicate entries (which the UI's
toggle bookkeeping maintains). -/
theorem c5_selected_matrix_ids (ms : List Matrix) (aps : List String)
    (f : String) (vo : List String) :
    selectedMatrixIds ms aps f vo = selectedMatrixIdsSpec ms aps f vo ∧
    (vo.Nodup → (selectedMatrixIds ms aps f vo).Nodup) :=
  ⟨selectedMatrixIds_eq_spec ms aps f vo,
    fun h => selectedMatrixIds_nodup ms aps f vo h⟩

/-- C5 (witness): the amended theorem at a state with two active pinned
matrices, an active focus `"foo"` not yet in the matrix list, and a
remembered view order mentioning an inactive id. -/
theorem c5_selected_matrix_ids_witness :
    selectedMatrixIds DEFAULT_MATRICES ["work", "personal"] "foo"
        ["personal", "goals", "foo"]
      = selectedMatrixIdsSpec DEFAULT_MATRICES ["work", "personal"] "foo"
        ["personal", "goals", "foo"] ∧
    (["personal", "goals", "foo"] : List String).Nodup ∧
    (selectedMatrixIds DEFAULT_MATRICES ["work", "personal"] "foo"
        ["personal", "goals", "foo"]).Nodup :=
  ⟨(c5_selected_matrix_ids DEFAULT_MATRICES ["work", "personal"] "foo"
      ["personal", "goals", "foo"]).1,
    by decide,
    (c5_selected_matrix_ids DEFAULT_MATRICES ["work", "personal"] "foo"
      ["personal", "goals", "foo"]).2 (by decide)⟩


theorem indexOf?_isSome_of_mem {l : List Nat} {a : Nat} (h : a ∈ l) :
    ∃ i, List.indexOf? a l = some i := by
  induction l with
  | nil => cases h
  | cons x xs ih =>
    by_cases hx : (x == a) = true
    · exact ⟨0, by rw [List.indexOf?_cons, if_pos hx]⟩
    · have hmem : a ∈ xs := by
        rcases List.mem_cons.mp h with rfl | h2
        · exact absurd (by simp) hx
        · exact h2
      rcases ih hmem with ⟨j, hj⟩
      refine ⟨j + 1, ?_⟩
      rw [List.indexOf?_cons, if_neg hx, hj]
      rfl

theorem applyOrderMap_eq_indexOf_map (ts : List Task) (ks : List Nat)
    (hnd : ks.Nodup) :
    applyOrderMap ts ks = ts.map (fun t =>
      if t.id ∈ ks then { t with order := some (ks.indexOf t.id : Int) }
      else t) := by
  unfold applyOrderMap
  refine List.map_congr_left (fun t ht => ?_)
  by_cases hmem : t.id ∈ ks
  · rw [if_pos hmem]
    exact applyOrderFun_mem_indexOf hnd hmem
  · rw [if_neg hmem]
    exact applyOrderFun_not_mem hmem

theorem handleDragEnd_same_scope (sel : List String) (ts : List Task)
    (aid oid : Nat) (a b : Task) (m : String)
    (hfa : ts.find? (fun t => t.id = aid) = some a)
    (hfb : ts.find? (fun t => t.id = oid) = some b)
    (ham : a.matrixId = some m) (hbm : b.matrixId = some m)
    (hbu : b.urgency = a.urgency) (hne : aid ≠ oid) (hsel : m ∈ sel) :
    handleDragEnd sel ts aid (some (.task oid)) =
      reorderWithin ts aid oid m a.urgency := by
  unfold handleDragEnd
  rw [hfa]
  show (match a.matrixId with
    | none => ts
    | some am =>
      if am ∈ sel then
        (match ts.find? (fun t => t.id = oid) with
         | none => ts
         | some overTask =>
           if overTask.matrixId ≠ a.matrixId then ts
           else if overTask.urgency ≠ a.urgency then
             moveToUrgency ts aid am a.urgency overTask.urgency
           else if aid = oid then ts
           else reorderWithin ts aid oid am a.urgency)
      else ts) = reorderWithin ts aid oid m a.urgency
  rw [ham]
  show (if m ∈ sel then
      (match ts.find? (fun t => t.id = oid) with
       | none => ts
       | some overTask =>
         if overTask.matrixId ≠ some m then ts
         else if overTask.urgency ≠ a.urgency then
           moveToUrgency ts aid m a.urgency overTask.urgency
         else if aid = oid then ts
         else reorderWithin ts aid oid m a.urgency)
    else ts) = reorderWithin ts aid oid m a.urgency
  rw [if_pos hsel, hfb]
  show (if b.matrixId ≠ some m then ts
    else if b.urgency ≠ a.urgency then
      moveToUrgency ts aid m a.urgency b.urgency
    else if aid = oid then ts
    else reorderWithin ts aid oid m a.urgency) = reorderWithin ts aid oid m a.urgency
  rw [if_neg (show ¬(b.matrixId ≠ some m) from fun hc => hc hbm)]
  rw [if_neg (show ¬(b.urgency ≠ a.urgency) from fun hc => hc hbu)]
  rw [if_neg hne]

/-- **C4**: dropping a dragged task onto a different task of the same matrix
and urgency scope behaves exactly as described: the interpreter forms the
scope's canonical live list (sorted by `order` ascending, ties by `id`
ascending), locates both ids in it, removes the dragged id and reinserts it at
the target's position (standard array-move, `specArrayMove`), and rewrites
each task's `order` in that scope to its index in the new sequence, leaving
every task outside the sequence unchanged. -/
theorem c4_same_scope_reorder (sel : List String) (ts : List Task)
    (aid oid : Nat) (a b : Task) (m : String)
    (hnd : (idsOf ts).Nodup)
    (hfa : ts.find? (fun t => t.id = aid) = some a)
    (hfb : ts.find? (fun t => t.id = oid) = some b)
    (ham : a.matrixId = some m)
    (hbm : b.matrixId = some m)
    (hbu : b.urgency = a.urgency)
    (hla : isLive a) (hlb : isLive b)
    (hne : aid ≠ oid)
    (hsel : m ∈ sel) :
    List.Perm (sortTasks (ts.filter (inScope m a.urgency)))
      (ts.filter (inScope m a.urgency)) ∧
    List.Pairwise taskLe (sortTasks (ts.filter (inScope m a.urgency))) ∧
    ∃ i j,
      List.indexOf? aid
        ((sortTasks (ts.filter (inScope m a.urgency))).map (·.id)) = some i ∧
      List.indexOf? oid
        ((sortTasks (ts.filter (inScope m a.urgency))).map (·.id)) = some j ∧
      handleDragEnd sel ts aid (some (.task oid)) =
        ts.map (fun t =>
          if t.id ∈ specArrayMove
              ((sortTasks (ts.filter (inScope m a.urgency))).map (·.id)) aid i j
          then
            { t with
                order := some ((specArrayMove
                  ((sortTasks (ts.filter (inScope m a.urgency))).map (·.id))
                  aid i j).indexOf t.id : Int) }
          else t) := by
  have hperm := sortTasks_perm (ts.filter (inScope m a.urgency))
  refine ⟨hperm, sortTasks_pairwise _, ?_⟩
  rcases find?_id_eq hfa with ⟨hamem, haid⟩
  rcases find?_id_eq hfb with ⟨hbmem, hbid⟩
  have hain : a ∈ ts.filter (inScope m a.urgency) := by
    rw [List.mem_filter]
    exact ⟨hamem, by simp [inScope, ham, hla]⟩
  have hbin : b ∈ ts.filter (inScope m a.urgency) := by
    rw [List.mem_filter]
    exact ⟨hbmem, by simp [inScope, hbm, hbu, hlb]⟩
  have haidg : aid ∈ (sortTasks (ts.filter (inScope m a.urgency))).map (·.id) := by
    rw [← haid]
    exact List.mem_map_of_mem _ (hperm.mem_iff.mpr hain)
  have hbidg : oid ∈ (sortTasks (ts.filter (inScope m a.urgency))).map (·.id) := by
    rw [← hbid]
    exact List.mem_map_of_mem _ (hperm.mem_iff.mpr hbin)
  rcases indexOf?_isSome_of_mem haidg with ⟨i, hia⟩
  rcases indexOf?_isSome_of_mem hbidg with ⟨j, hjb⟩
  refine ⟨i, j, hia, hjb, ?_⟩
  rw [handleDragEnd_same_scope sel ts aid oid a b m hfa hfb ham hbm hbu hne hsel]
  rw [reorderWithin_eq, hia, hjb]
  show applyOrderMap ts
    (arrayMove ((sortTasks (ts.filter (inScope m a.urgency))).map (·.id)) i j) = _
  have hgnd : ((sortTasks (ts.filter (inScope m a.urgency))).map (·.id)).Nodup := by
    have h1 : (idsOf (ts.filter (inScope m a.urgency))).Nodup :=
      nodup_idsOf_filter hnd (inScope m a.urgency)
    unfold idsOf at h1
    exact (hperm.map (·.id)).nodup_iff.mpr h1
  have hgia : ((sortTasks (ts.filter (inScope m a.urgency))).map (·.id))[i]?
      = some aid := getElem?_of_indexOf? hia
  have harr : arrayMove ((sortTasks (ts.filter (inScope m a.urgency))).map (·.id)) i j
      = specArrayMove ((sortTasks (ts.filter (inScope m a.urgency))).map (·.id))
        aid i j := by
    unfold arrayMove specArrayMove
    rw [hgia]
  rw [harr]
  have hand : (specArrayMove
      ((sortTasks (ts.filter (inScope m a.urgency))).map (·.id)) aid i j).Nodup := by
    have hp : List.Perm (specArrayMove
        ((sortTasks (ts.filter (inScope m a.urgency))).map (·.id)) aid i j)
        ((sortTasks (ts.filter (inScope m a.urgency))).map (·.id)) := by
      rw [← harr]
      exact arrayMove_perm hgia
    exact hp.nodup_iff.mpr hgnd
  exact applyOrderMap_eq_indexOf_map ts _ hand

/-- C4 (witness): from `[A(0), B(1), C(2)]` in the `("work", High)` scope,
dragging task 1 (`A`) onto task 3 (`C`) produces the sequence `[B, C, A]`
with orders `B = 0`, `C = 1`, `A = 2`. -/
theorem c4_same_scope_reorder_witness :
    (List.Perm
      (sortTasks ([taskA, taskB, taskC].filter (inScope "work" taskA.urgency)))
      ([taskA, taskB, taskC].filter (inScope "work" taskA.urgency)) ∧
     List.Pairwise taskLe
      (sortTasks ([taskA, taskB, taskC].filter (inScope "work" taskA.urgency))) ∧
     ∃ i j,
      List.indexOf? 1
        ((sortTasks ([taskA, taskB, taskC].filter
          (inScope "work" taskA.urgency))).map (·.id)) = some i ∧
      List.indexOf? 3
        ((sortTasks ([taskA, taskB, taskC].filter
          (inScope "work" taskA.urgency))).map (·.id)) = some j ∧
      handleDragEnd ["work"] [taskA, taskB, taskC] 1 (some (.task 3)) =
        [taskA, taskB, taskC].map (fun t =>
          if t.id ∈ specArrayMove
              ((sortTasks ([taskA, taskB, taskC].filter
                (inScope "work" taskA.urgency))).map (·.id)) 1 i j
          then
            { t with
                order := some ((specArrayMove
                  ((sortTasks ([taskA, taskB, taskC].filter
                    (inScope "work" taskA.urgency))).map (·.id))
                  1 i j).indexOf t.id : Int) }
          else t)) ∧
    handleDragEnd ["work"] [taskA, taskB, taskC] 1 (some (.task 3)) =
      [{ taskA with order := some 2 }, { taskB with order := some 0 },
       { taskC with order := some 1 }] :=
  ⟨c4_same_scope_reorder ["work"] [taskA, taskB, taskC] 1 3 taskA taskC "work"
      (by decide) (by decide) (by decide) rfl rfl rfl (by decide) (by decide)
      (by decide) (by decide),
    by decide⟩

end Taskenhower
